import Mathlib

/-!
Verification development for the `smol` parser-generator toolkit.

Strings are modelled as `List Char`, one element per scalar unit, with
indices counting units; `str::get` on such a sequence is a pure range
slice (every index is a unit boundary in this model).  Rust `Result<T, T>`
(the runtime's `StateResult`) is modelled by a dedicated two-constructor
inductive.  Fallible constructors (`Position::new`, `Span::from_positions`,
the EBNF `from_str` family) return `Option`.
-/

namespace Smol

/-- Models `parsegen::position::Position`: a cursor `(input, idx)` over a string. -/
structure Position where
  input : List Char
  idx : Nat
  deriving DecidableEq

/-- Models `str::get(i..j)`: `some` of the slice when `i ≤ j ≤ len`, else `none`. -/
def strGet (l : List Char) (i j : Nat) : Option (List Char) :=
  if i ≤ j ∧ j ≤ l.length then some ((l.drop i).take (j - i)) else none

/-- Models `Position::new`: succeeds iff `start ≤ input.len()`. -/
def Position.new (input : List Char) (start : Nat) : Option Position :=
  if start ≤ input.length then some { input := input, idx := start } else none

/-- Models `Position::match_str`: returns the flag together with the updated
cursor (the Rust method mutates `self` in place). -/
def Position.matchStrB (p : Position) (s : List Char) : Bool × Position :=
  let e := p.idx + s.length
  match strGet p.input p.idx e with
  | some m => if m = s then (true, { p with idx := e }) else (false, p)
  | none => (false, p)

/-- Models `parsegen::span::RelativeLocation`. -/
inductive RelativeLocation where
  | Before
  | After
  | Within
  | Encompasses
  deriving DecidableEq

/-- Models `parsegen::span::Span`.  The Rust field `end` is a Lean keyword and
is rendered as `stop`. -/
structure Span where
  s : List Char
  start : Nat
  stop : Nat
  deriving DecidableEq

/-- Models `Span::from_positions`: fails on distinct inputs or reversed indices. -/
def Span.fromPositions (a b : Position) : Option Span :=
  if a.input ≠ b.input then none
  else if a.idx > b.idx then none
  else some { s := a.input, start := a.idx, stop := b.idx }

/-- Models `Span::contains` (a `Result<bool>`: `none` iff the inputs differ). -/
def Span.contains (a b : Span) : Option Bool :=
  if a.s ≠ b.s then none
  else some (decide (a.start ≤ b.start) && decide (a.stop ≥ b.stop))

/-- Models `Span::relative_location`: the branch cascade from `span.rs`,
with the final `Err` (partial overlap) rendered as `none`. -/
def Span.relativeLocation (a b : Span) : Option RelativeLocation :=
  if a.s ≠ b.s then none
  else if a.start ≤ b.start ∧ a.stop ≤ b.start then some .Before
  else if a.start ≥ b.stop then some .After
  else if a.start ≥ b.start ∧ a.stop ≤ b.stop then some .Within
  else if a.start ≤ b.start ∧ a.stop ≥ b.stop then some .Encompasses
  else none

/-- Non-partial-overlap of two spans, as in the specification: disjoint one
way, disjoint the other way, or one contained in the other. -/
def nonPartialOverlap (a b : Span) : Prop :=
  a.stop ≤ b.start ∨ b.stop ≤ a.start ∨
    (b.start ≤ a.start ∧ a.stop ≤ b.stop) ∨ (a.start ≤ b.start ∧ b.stop ≤ a.stop)

/-- Models `parsegen::reserve::VecItem`. -/
inductive VecItem (α : Type) where
  | Value (v : α)
  | Marker
  deriving DecidableEq

/-- Models `parsegen::reserve::ReservePos`. -/
structure ReservePos where
  pos : Nat
  deriving DecidableEq

/-- Models `parsegen::reserve::ReserveVec`. -/
structure ReserveVec (α : Type) where
  vec : List (VecItem α)
  deriving DecidableEq

/-- Models `ReserveVec::new`. -/
def ReserveVec.new {α : Type} : ReserveVec α := { vec := [] }

/-- Models `ReserveVec::push`. -/
def ReserveVec.push {α : Type} (r : ReserveVec α) (v : α) : ReserveVec α :=
  { vec := r.vec ++ [VecItem.Value v] }

/-- Models `ReserveVec::reserve_next`, returning the handle with the new vector. -/
def ReserveVec.reserveNext {α : Type} (r : ReserveVec α) : ReservePos × ReserveVec α :=
  ({ pos := r.vec.length }, { vec := r.vec ++ [VecItem.Marker] })

/-- Models `ReserveVec::insert_at_reserved` (slot assignment `vec[pos] = Value(v)`). -/
def ReserveVec.insertAtReserved {α : Type} (r : ReserveVec α) (p : ReservePos) (v : α) :
    ReserveVec α :=
  { vec := r.vec.set p.pos (VecItem.Value v) }

/-- Models `impl Into<Vec<T>> for ReserveVec<T>`: keep the `Value`s in slot order. -/
def ReserveVec.intoVec {α : Type} (r : ReserveVec α) : List α :=
  r.vec.filterMap (fun it => match it with | .Value v => some v | .Marker => none)

/-- Models `parsegen::state::StateResult<T> = Result<T, T>`. -/
inductive StateResult (α : Type) where
  | Ok (v : α)
  | Err (v : α)
  deriving DecidableEq

/-- Models Rust `Result::or_else` as used for alternation. -/
def StateResult.orElseR {α : Type} (r : StateResult α) (f : α → StateResult α) : StateResult α :=
  match r with
  | .Ok v => .Ok v
  | .Err v => f v

/-- Models Rust `Result::and_then` as used for concatenation. -/
def StateResult.andThenR {α : Type} (r : StateResult α) (f : α → StateResult α) : StateResult α :=
  match r with
  | .Ok v => f v
  | .Err v => .Err v

/-- Models `parsegen::tokens::Token`. -/
structure Token (R : Type) where
  rule : R
  span : Span
  deriving DecidableEq

/-- Models the comparator closure inside `State::tokenize` (`added.sort_by`).
The source unwraps `contains` (same-input spans throughout a parse); the
unreachable mismatched-input branch is rendered as `false`. -/
def tokenCompare {R : Type} (a b : Token R) : Ordering :=
  if ((a.span.contains b.span).getD false) || decide (a.span.start < b.span.start) then .lt
  else if a.span.start ≥ b.span.stop then .gt
  else .eq

/-- Insertion of the head element into an already `less`-sorted tail: the
element moves right past every consecutive element that is `less` than it.
This is `insert_head` from Rust's stable slice sort. -/
def insertHead {α : Type} (less : α → α → Bool) : α → List α → List α
  | x, [] => [x]
  | x, y :: t => if less y x then y :: insertHead less x t else x :: y :: t

/-- Models `slice::sort_by` for short slices: Rust's stable sort handles any
run of at most 20 elements by running `insert_head` on every suffix, from the
last pair leftwards, which is exactly this right fold.  Every `sort_by` call
in `State::tokenize` for the scenarios below sorts at most 8 elements. -/
def sortByRust {α : Type} (less : α → α → Bool) : List α → List α
  | [] => []
  | x :: rest => insertHead less x (sortByRust less rest)

/-- Models `parsegen::state::State`: matched tokens plus the cursor. -/
structure State (R : Type) where
  tokens : List (Token R)
  cursor : Position
  deriving DecidableEq

/-- Models `State::new`: fresh cursor at 0, no tokens.  (The Lean field
accessor `State.tokens` doubles as the source's `State::tokens(self)`,
which returns the token vector unchanged.) -/
def State.new {R : Type} (input : List Char) : Option (State R) :=
  (Position.new input 0).map (fun c => { tokens := [], cursor := c })

/-- Models `State::match_str`: state is updated only on a successful match. -/
def State.matchStr {R : Type} (st : State R) (s : List Char) : StateResult (State R) :=
  match st.cursor.matchStrB s with
  | (true, c) => .Ok { st with cursor := c }
  | (false, c) => .Err { st with cursor := c }

/-- Models `State::apply`. -/
def State.apply {R : Type} (st : State R) (f : State R → StateResult (State R)) :
    StateResult (State R) :=
  f st

/-- Models `State::optional`: `Ok` regardless of the body's outcome. -/
def State.optional {R : Type} (st : State R) (f : State R → StateResult (State R)) :
    StateResult (State R) :=
  match f st with
  | .Ok v => .Ok v
  | .Err v => .Ok v

/-- Models `State::repeat` with an explicit iteration budget: the source loops
`result = f(state)` until the first `Err` with no budget at all, so `none`
here means the loop is still running after `fuel` iterations. -/
def State.repeatFuel {R : Type} (f : State R → StateResult (State R)) :
    Nat → State R → Option (StateResult (State R))
  | 0, _ => none
  | n + 1, st =>
    match f st with
    | .Ok v => State.repeatFuel f n v
    | .Err v => some (.Ok v)

/-- Models `State::tokenize` from `state.rs`: snapshot the cursor, run the
body, push the parent token, then pop the freshly added region and re-sort it
with the span comparator.  The source unwraps `Span::from_positions`; that
panic branch is unreachable for bodies that only advance the cursor on the
same input, and is rendered as `Err`. -/
def State.tokenize {R : Type} (st : State R) (rule : R)
    (f : State R → StateResult (State R)) : StateResult (State R) :=
  let start := st.cursor
  let tokLen := st.tokens.length
  match f st with
  | .Ok s1 =>
    match Span.fromPositions start s1.cursor with
    | some sp =>
      let pushed := s1.tokens ++ [{ rule := rule, span := sp }]
      let kept := pushed.take tokLen
      let added := (pushed.drop tokLen).reverse
      let sorted := sortByRust (fun a b => tokenCompare a b == Ordering.lt) added
      .Ok { s1 with tokens := kept ++ sorted }
    | none => .Err s1
  | .Err s1 => .Err s1

/-- Rule enumeration of the doc-example grammar `a="a"; b="b"; ab=a,b; ababa=ab,ab,a`. -/
inductive AbRule where
  | a
  | b
  | ab
  | ababa
  deriving DecidableEq

/-- Rule function `a`: `state.tokenize(Rule::a, |s| s.match_str("a"))`. -/
def ruleA (s : State AbRule) : StateResult (State AbRule) :=
  State.tokenize s .a (fun t => State.matchStr t ['a'])

/-- Rule function `b`: `state.tokenize(Rule::b, |s| s.match_str("b"))`. -/
def ruleB (s : State AbRule) : StateResult (State AbRule) :=
  State.tokenize s .b (fun t => State.matchStr t ['b'])

/-- Rule function `ab`: `state.tokenize(Rule::ab, |s| a(s).and_then(b))`. -/
def ruleAB (s : State AbRule) : StateResult (State AbRule) :=
  State.tokenize s .ab (fun t => StateResult.andThenR (ruleA t) ruleB)

/-- Rule function `ababa`: `state.tokenize(Rule::ababa, |s| ab(s).and_then(ab).and_then(a))`. -/
def ruleABABA (s : State AbRule) : StateResult (State AbRule) :=
  State.tokenize s .ababa
    (fun t => StateResult.andThenR (StateResult.andThenR (ruleAB t) ruleAB) ruleA)

/-- Input for the pre-order scenario. -/
def abInput : List Char := "ababa".data

/-- Input for the failure-cleanup scenario. -/
def acInput : List Char := "ac".data

/-- Expected depth-first pre-order token sequence for `ababa` on `"ababa"`. -/
def c1ExpectedTokens : List (Token AbRule) :=
  [ { rule := .ababa, span := { s := abInput, start := 0, stop := 5 } },
    { rule := .ab, span := { s := abInput, start := 0, stop := 2 } },
    { rule := .a, span := { s := abInput, start := 0, stop := 1 } },
    { rule := .b, span := { s := abInput, start := 1, stop := 2 } },
    { rule := .ab, span := { s := abInput, start := 2, stop := 4 } },
    { rule := .a, span := { s := abInput, start := 2, stop := 3 } },
    { rule := .b, span := { s := abInput, start := 3, stop := 4 } },
    { rule := .a, span := { s := abInput, start := 4, stop := 5 } } ]

/-- Body that returns `Ok` without advancing the cursor:
`optional(match_str("x"))` on exhausted input. -/
def nonAdvancingBody (s : State AbRule) : StateResult (State AbRule) :=
  State.optional s (fun t => State.matchStr t ['x'])

/-- Fresh state over empty input for the divergence scenario. -/
def emptyAbState : State AbRule :=
  { tokens := [], cursor := { input := [], idx := 0 } }

/-- Left brace character (written via its code point to keep braces out of literals). -/
def lbrace : Char := Char.ofNat 123

/-- Right brace character. -/
def rbrace : Char := Char.ofNat 125

/-- Single-quote character. -/
def squote : Char := Char.ofNat 39

/-- Parsers over unit sequences, modelling `nom` parsers `&str -> IResult<&str, T>`:
`some (rem, v)` is `Ok((rem, v))`, `none` collapses the `nom` error cases. -/
def Parser (α : Type) : Type :=
  List Char → Option (List Char × α)

/-- Models `nom::bytes::complete::tag`. -/
def tagP (t : List Char) : Parser (List Char) := fun i =>
  if t.isPrefixOf i then some (i.drop t.length, t) else none

/-- Models `nom::bytes::complete::take_until`: consume up to the first
occurrence of `t`, failing when `t` does not occur. -/
def takeUntil (t : List Char) : List Char → Option (List Char × List Char)
  | [] => if t.isPrefixOf ([] : List Char) then some ([], []) else none
  | c :: rest =>
    if t.isPrefixOf (c :: rest) then some (c :: rest, [])
    else
      match takeUntil t rest with
      | some (rem, m) => some (rem, c :: m)
      | none => none

/-- Models `nom::bytes::complete::take_while` (never fails). -/
def takeWhileP (p : Char → Bool) : Parser (List Char) := fun i =>
  some (i.dropWhile p, i.takeWhile p)

/-- Models `nom::character::complete::alpha1` (one or more ASCII letters). -/
def alpha1 : Parser (List Char) := fun i =>
  if i.takeWhile Char.isAlpha = [] then none
  else some (i.dropWhile Char.isAlpha, i.takeWhile Char.isAlpha)

/-- Models `nom::character::complete::alphanumeric1`. -/
def alphanumeric1 : Parser (List Char) := fun i =>
  if i.takeWhile Char.isAlphanum = [] then none
  else some (i.dropWhile Char.isAlphanum, i.takeWhile Char.isAlphanum)

/-- Models `nom::character::complete::space0` (spaces and tabs only). -/
def space0 : Parser (List Char) :=
  takeWhileP (fun c => c == ' ' || c == '\t')

/-- Models two-branch `nom::branch::alt`: first success wins. -/
def orElse {α : Type} (p q : Parser α) : Parser α := fun i =>
  match p i with
  | some r => some r
  | none => q i

/-- Models `nom::sequence::pair`. -/
def pairP {α β : Type} (p : Parser α) (q : Parser β) : Parser (α × β) := fun i =>
  match p i with
  | some (i1, a) =>
    match q i1 with
    | some (i2, b) => some (i2, (a, b))
    | none => none
  | none => none

/-- Models `nom::sequence::preceded`. -/
def preceded {α β : Type} (p : Parser α) (q : Parser β) : Parser β := fun i =>
  match p i with
  | some (i1, _) => q i1
  | none => none

/-- Models `nom::sequence::terminated`. -/
def terminated {α β : Type} (p : Parser α) (q : Parser β) : Parser α := fun i =>
  match p i with
  | some (i1, a) =>
    match q i1 with
    | some (i2, _) => some (i2, a)
    | none => none
  | none => none

/-- Models `nom::sequence::delimited`. -/
def delimited {α β γ : Type} (p : Parser α) (q : Parser β) (r : Parser γ) : Parser β := fun i =>
  match p i with
  | some (i1, _) =>
    match q i1 with
    | some (i2, b) =>
      match r i2 with
      | some (i3, _) => some (i3, b)
      | none => none
    | none => none
  | none => none

/-- Models `nom::sequence::separated_pair`. -/
def separatedPair {α β γ : Type} (p : Parser α) (sep : Parser β) (q : Parser γ) :
    Parser (α × γ) := fun i =>
  match p i with
  | some (i1, a) =>
    match sep i1 with
    | some (i2, _) =>
      match q i2 with
      | some (i3, c) => some (i3, (a, c))
      | none => none
    | none => none
  | none => none

/-- Models `nom::combinator::recognize`: return the consumed prefix. -/
def recognizeP {α : Type} (p : Parser α) : Parser (List Char) := fun i =>
  match p i with
  | some (i1, _) => some (i1, i.take (i.length - i1.length))
  | none => none

/-- Models `nom::multi::many0` with an explicit budget: the loop stops on the
first inner failure, and errors (like `nom`'s infinite-loop guard) when an
iteration succeeds without consuming.  Because of that guard every successful
iteration strictly shortens the input, so a budget of `input length + 1`
(used by `many0`) is never exhausted. -/
def many0Go {α : Type} (p : Parser α) : Nat → List Char → Option (List Char × List α)
  | 0, _ => none
  | fuel + 1, i =>
    match p i with
    | none => some (i, [])
    | some (i1, a) =>
      if i1.length = i.length then none
      else
        match many0Go p fuel i1 with
        | some (rem, rest) => some (rem, a :: rest)
        | none => none

/-- Models `nom::multi::many0`. -/
def many0 {α : Type} (p : Parser α) : Parser (List α) := fun i =>
  many0Go p (i.length + 1) i

/-- Models the `ebnf` AST: `Rhs` with the `Identifier`, `Terminal`, `Lhs`
newtypes flattened to their character content. -/
inductive Rhs where
  | Identifier (x : List Char)
  | Terminal (t : List Char)
  | Optional (r : Rhs)
  | Repeat (r : Rhs)
  | Group (r : Rhs)
  | Exception (a b : Rhs)
  | Alternation (a b : Rhs)
  | Concatenation (a b : Rhs)
  deriving DecidableEq

/-- Models `ebnf::Production` (the `Lhs(Identifier(...))` wrappers flattened). -/
structure Production where
  lhs : List Char
  rhs : Rhs
  deriving DecidableEq

/-- Models `ebnf::Grammar`. -/
structure Grammar where
  rules : List Production
  deriving DecidableEq

/-- Models `impl Display for Terminal`: the canonical double-quoted form. -/
def printTerminal (t : List Char) : List Char :=
  '"' :: (t ++ ['"'])

/-- Models `impl Display for Rhs` (with `Display` for `Identifier`/`Terminal`
inlined). -/
def printRhs : Rhs → List Char
  | .Identifier x => x
  | .Terminal t => printTerminal t
  | .Optional r => '[' :: ' ' :: (printRhs r ++ [' ', ']'])
  | .Repeat r => lbrace :: ' ' :: (printRhs r ++ [' ', rbrace])
  | .Group r => '(' :: ' ' :: (printRhs r ++ [' ', ')'])
  | .Exception a b => printRhs a ++ (' ' :: '-' :: ' ' :: printRhs b)
  | .Alternation a b => printRhs a ++ (' ' :: '|' :: ' ' :: printRhs b)
  | .Concatenation a b => printRhs a ++ (' ' :: ',' :: ' ' :: printRhs b)

/-- Models `impl Display for Production`: `lhs = rhs ;`. -/
def printProduction (p : Production) : List Char :=
  p.lhs ++ (' ' :: '=' :: ' ' :: printRhs p.rhs) ++ [' ', ';']

/-- Models `impl Display for Grammar`: one production per line (`writeln`). -/
def printGrammar (g : Grammar) : List Char :=
  (g.rules.map (fun p => printProduction p ++ ['\n'])).flatten

/-- Models `parser::terminal`: a string literal in double or single quotes. -/
def terminal : Parser (List Char) :=
  orElse (delimited (tagP ['"']) (takeUntil ['"']) (tagP ['"']))
    (delimited (tagP [squote]) (takeUntil [squote]) (tagP [squote]))

/-- Models `parser::identifier`:
`recognize(pair(alt((alpha1, tag("_"))), many0(alt((alphanumeric1, tag("_"))))))`. -/
def identifier : Parser (List Char) :=
  recognizeP (pairP (orElse alpha1 (tagP ['_'])) (many0 (orElse alphanumeric1 (tagP ['_']))))

/-- Models `parser::lhs` (the `Lhs` wrapper flattened). -/
def lhsP : Parser (List Char) :=
  identifier

/-- Terminal branch of the `rhs` dispatcher. -/
def rhsTerminalP : Parser Rhs := fun i =>
  (terminal i).map (fun r => (r.1, Rhs.Terminal r.2))

/-- Identifier branch of the `rhs` dispatcher. -/
def rhsIdentifierP : Parser Rhs := fun i =>
  (identifier i).map (fun r => (r.1, Rhs.Identifier r.2))

/-- Models `parser::rhs_group`; `rec` is the recursive `rhs` entry point. -/
def rhsGroupP (rec : Parser Rhs) : Parser Rhs := fun i =>
  match delimited (tagP ['(']) (takeUntil [')']) (tagP [')']) i with
  | some (rem, m) =>
    match rec m with
    | some (_, inner) => some (rem, Rhs.Group inner)
    | none => none
  | none => none

/-- Models `parser::rhs_repetition`. -/
def rhsRepetitionP (rec : Parser Rhs) : Parser Rhs := fun i =>
  match delimited (tagP [lbrace]) (takeUntil [rbrace]) (tagP [rbrace]) i with
  | some (rem, m) =>
    match rec m with
    | some (_, inner) => some (rem, Rhs.Repeat inner)
    | none => none
  | none => none

/-- Models `parser::rhs_optional`. -/
def rhsOptionalP (rec : Parser Rhs) : Parser Rhs := fun i =>
  match delimited (tagP ['[']) (takeUntil [']']) (tagP [']']) i with
  | some (rem, m) =>
    match rec m with
    | some (_, inner) => some (rem, Rhs.Optional inner)
    | none => none
  | none => none

/-- Models `parser::rhs_alternation`: split at the first `|`, reparse the left
fragment (remainder discarded), parse the right with the full `rhs`. -/
def rhsAlternationP (rec : Parser Rhs) : Parser Rhs := fun i =>
  match separatedPair (takeUntil ['|']) (tagP ['|']) rec i with
  | some (rem, (m1, b)) =>
    match rec m1 with
    | some (_, a) => some (rem, Rhs.Alternation a b)
    | none => none
  | none => none

/-- Models `parser::rhs_concatenation`. -/
def rhsConcatenationP (rec : Parser Rhs) : Parser Rhs := fun i =>
  match separatedPair (takeUntil [',']) (tagP [',']) rec i with
  | some (rem, (m1, b)) =>
    match rec m1 with
    | some (_, a) => some (rem, Rhs.Concatenation a b)
    | none => none
  | none => none

/-- Models `parser::rhs_exception`. -/
def rhsExceptionP (rec : Parser Rhs) : Parser Rhs := fun i =>
  match separatedPair (takeUntil ['-']) (tagP ['-']) rec i with
  | some (rem, (m1, b)) =>
    match rec m1 with
    | some (_, a) => some (rem, Rhs.Exception a b)
    | none => none
  | none => none

/-- The `alt` chain of the `rhs` dispatcher: the branch order group /
repetition / optional / alternation / concatenation / exception / terminal /
identifier, first success wins. -/
def rhsAlt (rec : Parser Rhs) : Parser Rhs :=
  orElse (rhsGroupP rec)
    (orElse (rhsRepetitionP rec)
      (orElse (rhsOptionalP rec)
        (orElse (rhsAlternationP rec)
          (orElse (rhsConcatenationP rec)
            (orElse (rhsExceptionP rec)
              (orElse rhsTerminalP rhsIdentifierP))))))

/-- Models `parser::rhs` with an explicit recursion budget: leading `space0`,
then the `rhsAlt` branch cascade.  Every recursive call in the source acts on
a strictly shorter input, so a budget of `input length + 1` (used by `rhs`)
is never exhausted. -/
def rhsF : Nat → Parser Rhs
  | 0 => fun _ => none
  | fuel + 1 => fun i => preceded space0 (rhsAlt (rhsF fuel)) i

/-- Models `parser::rhs` at its natural budget. -/
def rhs : Parser Rhs := fun i =>
  rhsF (i.length + 1) i

/-- Models `parser::production`: split on the first `=` and the first `;`,
then parse the two fragments (their remainders are discarded). -/
def production : Parser Production := fun i =>
  match terminated (separatedPair (takeUntil ['=']) (tagP ['=']) (takeUntil [';']))
      (tagP [';']) i with
  | some (rem, (mlhs, mrhs)) =>
    match lhsP mlhs with
    | some (_, l) =>
      match rhs mrhs with
      | some (_, r) => some (rem, { lhs := l, rhs := r })
      | none => none
    | none => none
  | none => none

/-- Character class of the repo's `parser::whitespace`. -/
def isWhitespaceChar (c : Char) : Bool :=
  c == ' ' || c == '\t' || c == '\r' || c == '\n'

/-- Models `parser::whitespace`. -/
def whitespaceP : Parser (List Char) :=
  takeWhileP isWhitespaceChar

/-- Models `parser::comment`: `(* ... *)`. -/
def comment : Parser (List Char) :=
  delimited (tagP ['(', '*']) (takeUntil ['*', ')']) (tagP ['*', ')'])

/-- Models `parser::comment_and_whitespace`. -/
def commentAndWhitespace : Parser (List Char) :=
  orElse (terminated (preceded whitespaceP comment) whitespaceP) whitespaceP

/-- Models `parser::grammar`. -/
def grammar : Parser Grammar := fun i =>
  (many0 (terminated (preceded commentAndWhitespace production) commentAndWhitespace) i).map
    (fun r => (r.1, { rules := r.2 }))

/-- Models `impl FromStr for Rhs`: the unconsumed remainder is discarded. -/
def Rhs.fromStr (s : List Char) : Option Rhs :=
  (rhs s).map (fun r => r.2)

/-- Models `impl FromStr for Production`. -/
def Production.fromStr (s : List Char) : Option Production :=
  (production s).map (fun r => r.2)

/-- Models `impl FromStr for Grammar`. -/
def Grammar.fromStr (s : List Char) : Option Grammar :=
  (grammar s).map (fun r => r.2)

/-- Models the `Rhs::Terminal` arm of `generate_rhs_expression`: the string
handed to the generated `state.match_str` call is `format!("\"{}\"", term)`,
where `term` is the `Terminal` and its `Display` already wraps the text in
double quotes. -/
def genTerminalMatchArg (t : List Char) : List Char :=
  '"' :: (printTerminal t ++ ['"'])

/-- Models `derive::error::DeriveError`. -/
inductive DeriveError where
  | MissingGrammarSource
  | MultipleGrammarSources
  | Other (msg : List Char)
  deriving DecidableEq

/-- Models the outcome of `attr.parse_meta()` on a derive attribute, to the
precision `grammar_from_ast` inspects: a name-value pair with a string
literal, a name-value pair with some other literal, or anything else
(other meta forms and parse failures). -/
inductive AttrMeta where
  | NameValueStr (path : List Char) (value : List Char)
  | NameValueOther (path : List Char)
  | OtherMeta
  deriving DecidableEq

/-- The `ebnf_file` attribute name. -/
def ebnfFileAttr : List Char := "ebnf_file".data

/-- The `ebnf_inline` attribute name. -/
def ebnfInlineAttr : List Char := "ebnf_inline".data

/-- Models the filter closure in `grammar_from_ast`: keep attributes whose
meta is a name-value naming `ebnf_file` or `ebnf_inline`. -/
def isGrammarSource : AttrMeta → Bool
  | .NameValueStr p _ => p == ebnfFileAttr || p == ebnfInlineAttr
  | .NameValueOther p => p == ebnfFileAttr || p == ebnfInlineAttr
  | .OtherMeta => false

/-- Models the materialization of the single selected source attribute
(the second `parse_meta` match in `grammar_from_ast`).  File reading is
external I/O and is abstracted by the `readFile` oracle; the outer `Option`
renders the `.unwrap()` panic on an unparsable grammar (`none` = panic). -/
def materializeSource (readFile : List Char → Option (List Char)) :
    AttrMeta → Option (Except DeriveError Grammar)
  | .NameValueStr p v =>
    if p == ebnfFileAttr then
      match readFile v with
      | some data => (Grammar.fromStr data).map Except.ok
      | none => some (.error (.Other "read ebnf file".data))
    else
      (Grammar.fromStr v).map Except.ok
  | .NameValueOther _ => some (.error (.Other "attribute not a string".data))
  | .OtherMeta => some (.error (.Other "attribute not a name value".data))

/-- Models `derive::generate::grammar_from_ast`: filter the attributes down
to grammar sources, dispatch on how many there are, and materialize the
single one.  The outer `Option` renders the `.unwrap()` panics (`none` =
panic), as in `materializeSource`. -/
def grammarFromAst (readFile : List Char → Option (List Char))
    (attrs : List AttrMeta) : Option (Except DeriveError Grammar) :=
  match attrs.filter isGrammarSource with
  | [] => some (.error .MissingGrammarSource)
  | [a] => materializeSource readFile a
  | _ :: _ :: _ => some (.error .MultipleGrammarSources)

/-- Characters allowed after the first position of a well-formed identifier. -/
def identChar (c : Char) : Bool :=
  c.isAlphanum || c == '_'

/-- Characters allowed in the first position of a well-formed identifier. -/
def identHeadChar (c : Char) : Bool :=
  c.isAlpha || c == '_'

/-- Well-formed identifier text: nonempty, `[A-Za-z_][A-Za-z0-9_]*` (the
data-model invariant of section 3 of the specification). -/
def wfIdent : List Char → Bool
  | [] => false
  | c :: rest => identHeadChar c && rest.all identChar

/-- The EBNF metacharacters: quote delimiters, brackets, the three binary
operators, the production separators. -/
def ebnfSpecials : List Char :=
  ['"', squote, '(', ')', '[', ']', lbrace, rbrace, '|', ',', '-', ';', '=']

/-- Terminal text characters that never interfere with the grammar syntax. -/
def safeTermChar (c : Char) : Bool :=
  !(ebnfSpecials.contains c)

/-- The leftmost operand of a (possibly nested) binary form is an identifier
or a terminal, so the printed form starts with an identifier character or a
quote and no bracket branch of the dispatcher can fire first. -/
def headAtomOk : Rhs → Bool
  | .Identifier _ => true
  | .Terminal _ => true
  | .Optional _ => false
  | .Repeat _ => false
  | .Group _ => false
  | .Exception a _ => headAtomOk a
  | .Alternation a _ => headAtomOk a
  | .Concatenation a _ => headAtomOk a

/-- Parser-shaped right-hand sides: the class on which printing inverts
parsing.  Identifiers are well-formed; terminal texts avoid the
metacharacters; a bracketed form's body prints without the bracket's closing
character (the source's `take_until` is not nesting-aware); a binary form's
left operand prints without the operator character (the source splits at the
first occurrence), its leftmost operand is an atom, and operands avoid the
characters of the higher-precedence branches tried earlier by the
dispatcher. -/
def validRhs : Rhs → Bool
  | .Identifier x => wfIdent x
  | .Terminal t => t.all safeTermChar
  | .Optional r => validRhs r && !((printRhs r).contains ']')
  | .Repeat r => validRhs r && !((printRhs r).contains rbrace)
  | .Group r => validRhs r && !((printRhs r).contains ')')
  | .Alternation a b => validRhs a && validRhs b && headAtomOk a
      && !((printRhs a).contains '|')
  | .Concatenation a b => validRhs a && validRhs b && headAtomOk a
      && !((printRhs a).contains '|') && !((printRhs b).contains '|')
      && !((printRhs a).contains ',')
  | .Exception a b => validRhs a && validRhs b && headAtomOk a
      && !((printRhs a).contains '|') && !((printRhs b).contains '|')
      && !((printRhs a).contains ',') && !((printRhs b).contains ',')
      && !((printRhs a).contains '-')

/-- Parser-shaped production: well-formed lhs, parser-shaped rhs. -/
def validProduction (p : Production) : Bool :=
  wfIdent p.lhs && validRhs p.rhs

/-- Parser-shaped grammar: every production is parser-shaped. -/
def validGrammar (g : Grammar) : Bool :=
  g.rules.all validProduction

/-- Tails that can follow a printed rhs inside a larger printed context:
nothing, or the single space before a closing delimiter or separator. -/
def goodTail (s : List Char) : Prop :=
  s = [] ∨ s = [' ']

/-- C1: for the grammar `a="a"; b="b"; ab=a,b; ababa=ab,ab,a` built from
`State::tokenize`, parsing `"ababa"` from rule `ababa` succeeds and
`State::tokens()` yields exactly the eight tokens
`[ababa, ab, a, b, ab, a, b, a]` with spans
`[0..5, 0..2, 0..1, 1..2, 2..4, 2..3, 3..4, 4..5]` — the depth-first
pre-order linearization. -/
theorem c1_parse_preorder :
    (State.new abInput : Option (State AbRule))
        = some { tokens := [], cursor := { input := abInput, idx := 0 } }
    ∧ ruleABABA { tokens := [], cursor := { input := abInput, idx := 0 } }
        = .Ok { tokens := c1ExpectedTokens, cursor := { input := abInput, idx := 5 } }
    ∧ State.tokens { tokens := c1ExpectedTokens, cursor := { input := abInput, idx := 5 } }
        = c1ExpectedTokens :=
  ⟨rfl, rfl, rfl⟩

/-- C4: the claim says a failing `State::tokenize` returns the entry state
(token list and cursor restored).  The code instead returns `Err(state)`
with every token appended by the body still present and the cursor left at
the failure site: for `ab = a,b` on `"ac"`, the sub-rule `a` succeeds (one
token, cursor 1) and then `b` fails, and `tokenize` leaks both. -/
theorem c4_tokenize_failure_leaks_state :
    ruleAB { tokens := [], cursor := { input := acInput, idx := 0 } }
      = .Err { tokens := [{ rule := .a, span := { s := acInput, start := 0, stop := 1 } }],
               cursor := { input := acInput, idx := 1 } }
    ∧ ({ tokens := [{ rule := .a, span := { s := acInput, start := 0, stop := 1 } }],
         cursor := { input := acInput, idx := 1 } } : State AbRule)
        ≠ { tokens := [], cursor := { input := acInput, idx := 0 } } := by
  exact ⟨rfl, by decide⟩

/-- C5: the claim says `State::repeat(f)` always terminates, detecting a
non-advancing `Ok` from `f`.  The code has no such detection: with the body
`optional(match_str("x"))` on empty input — which returns `Ok` without
advancing — the loop is still running after `n` iterations for every `n`,
i.e. `repeat` diverges. -/
theorem c5_repeat_diverges_on_non_advance :
    nonAdvancingBody emptyAbState = .Ok emptyAbState
    ∧ ∀ n : Nat, State.repeatFuel nonAdvancingBody n emptyAbState = none := by
  refine ⟨rfl, ?_⟩
  intro n
  induction n with
  | zero => rfl
  | succ n ih => exact ih

/-- C6 counterexample: two spans with equal bounds both classify as `Within`,
so `B.relative_location(A) = Within` does not imply
`A.relative_location(B) = Encompasses` as the claim's iff requires. -/
theorem c6_equal_spans_break_iff :
    Span.relativeLocation { s := ['a'], start := 0, stop := 1 }
        { s := ['a'], start := 0, stop := 1 } = some RelativeLocation.Within
    ∧ Span.relativeLocation { s := ['a'], start := 0, stop := 1 }
        { s := ['a'], start := 0, stop := 1 } ≠ some RelativeLocation.Encompasses := by
  decide

/-- C6 amended: on same-input spans with ordered bounds, `relative_location`
is total on non-partially-overlapping pairs; `A.relative_location(B) =
Encompasses` always implies `B.relative_location(A) = Within`; and the
converse holds whenever the two spans do not have equal bounds (equal-bound
pairs classify as `Within` in both directions). -/
theorem c6_relative_location_amended :
    ∀ A B : Span, A.s = B.s → A.start ≤ A.stop → B.start ≤ B.stop →
      (nonPartialOverlap A B → (Span.relativeLocation A B).isSome)
      ∧ (Span.relativeLocation A B = some RelativeLocation.Encompasses →
          Span.relativeLocation B A = some RelativeLocation.Within)
      ∧ (Span.relativeLocation B A = some RelativeLocation.Within →
          ¬(A.start = B.start ∧ A.stop = B.stop) →
          Span.relativeLocation A B = some RelativeLocation.Encompasses) := by
  intro A B hs hA hB
  have hss : ¬ A.s ≠ B.s := by simp [hs]
  have hss' : ¬ B.s ≠ A.s := by simp [hs]
  refine ⟨?_, ?_, ?_⟩
  · intro hnpo
    simp only [Span.relativeLocation, if_neg hss]
    split_ifs <;> simp_all [nonPartialOverlap] <;> omega
  · intro h
    simp only [Span.relativeLocation, if_neg hss] at h
    simp only [Span.relativeLocation, if_neg hss']
    split_ifs at h <;> simp_all <;> split_ifs <;> simp_all <;> omega
  · intro h hne
    simp only [Span.relativeLocation, if_neg hss'] at h
    simp only [Span.relativeLocation, if_neg hss]
    split_ifs at h <;> simp_all <;> split_ifs <;> simp_all <;> omega

/-- C6 witness: the amended statement applied to `"hello world"` spans
`[0,11)` and `[0,5)`. -/
theorem c6_relative_location_amended_witness :
    (nonPartialOverlap { s := "hello world".data, start := 0, stop := 11 }
        { s := "hello world".data, start := 0, stop := 5 } →
      (Span.relativeLocation { s := "hello world".data, start := 0, stop := 11 }
        { s := "hello world".data, start := 0, stop := 5 }).isSome)
    ∧ (Span.relativeLocation { s := "hello world".data, start := 0, stop := 11 }
          { s := "hello world".data, start := 0, stop := 5 } = some RelativeLocation.Encompasses →
        Span.relativeLocation { s := "hello world".data, start := 0, stop := 5 }
          { s := "hello world".data, start := 0, stop := 11 } = some RelativeLocation.Within)
    ∧ (Span.relativeLocation { s := "hello world".data, start := 0, stop := 5 }
          { s := "hello world".data, start := 0, stop := 11 } = some RelativeLocation.Within →
        ¬((0 : Nat) = 0 ∧ (11 : Nat) = 5) →
        Span.relativeLocation { s := "hello world".data, start := 0, stop := 11 }
          { s := "hello world".data, start := 0, stop := 5 } = some RelativeLocation.Encompasses) :=
  c6_relative_location_amended
    { s := "hello world".data, start := 0, stop := 11 }
    { s := "hello world".data, start := 0, stop := 5 }
    rfl (by decide) (by decide)

/-- C7: the operation sequence `push a; r1 = reserve; push b; r2 = reserve;
fill r2 d; fill r1 c` finalizes to `[a, c, b, d]`; a three-reservation
analogue finalizes to `[x, a, y, b, z]`; and the four-reservation sequence
interleaved with `push 1` and `push 2` filled with `3,4,5,6` finalizes to
`[3, 1, 4, 5, 2, 6]`. -/
theorem c7_reservevec_ordering :
    ∀ (α : Type) (a b c d x y z : α),
      (let r1 := (ReserveVec.new : ReserveVec α).push a
       let (p1, r2) := r1.reserveNext
       let r3 := r2.push b
       let (p2, r4) := r3.reserveNext
       ((r4.insertAtReserved p2 d).insertAtReserved p1 c).intoVec) = [a, c, b, d]
      ∧ (let (q1, t1) := (ReserveVec.new : ReserveVec α).reserveNext
         let t2 := t1.push a
         let (q2, t3) := t2.reserveNext
         let t4 := t3.push b
         let (q3, t5) := t4.reserveNext
         (((t5.insertAtReserved q3 z).insertAtReserved q1 x).insertAtReserved q2 y).intoVec)
          = [x, a, y, b, z]
      ∧ (let (u1, v1) := (ReserveVec.new : ReserveVec Nat).reserveNext
         let v2 := v1.push 1
         let (u2, v3) := v2.reserveNext
         let (u3, v4) := v3.reserveNext
         let v5 := v4.push 2
         let (u4, v6) := v5.reserveNext
         ((((v6.insertAtReserved u1 3).insertAtReserved u2 4).insertAtReserved
            u3 5).insertAtReserved u4 6).intoVec) = [3, 1, 4, 5, 2, 6] := by
  intro α a b c d x y z
  exact ⟨rfl, rfl, rfl⟩

/-- C8: for an in-bounds position, `match_str(s)` returning false leaves the
position (input and index) unchanged; returning true advances the index by
exactly `s.len()` and the unit substring `input[idx .. idx+s.len()]` equals
`s` — the comparison is exact, with no normalization. -/
theorem c8_match_str_atomicity :
    ∀ (input s : List Char) (idx : Nat), idx ≤ input.length →
      ((Position.matchStrB { input := input, idx := idx } s).1 = false →
        (Position.matchStrB { input := input, idx := idx } s).2
          = { input := input, idx := idx })
      ∧ ((Position.matchStrB { input := input, idx := idx } s).1 = true →
        (Position.matchStrB { input := input, idx := idx } s).2
            = { input := input, idx := idx + s.length }
          ∧ (input.drop idx).take s.length = s) := by
  intro input s idx _
  unfold Position.matchStrB strGet
  simp only [Nat.add_sub_cancel_left, Nat.le_add_right, true_and]
  by_cases hb : idx + s.length ≤ input.length
  · simp only [hb, if_true]
    by_cases hm : (input.drop idx).take s.length = s
    · simp [hm]
    · simp [hm]
  · simp [hb]

/-- C8 witness: `match_str("he")` at index 0 of `"hello"`. -/
theorem c8_match_str_atomicity_witness :
    ((Position.matchStrB { input := "hello".data, idx := 0 } "he".data).1 = false →
      (Position.matchStrB { input := "hello".data, idx := 0 } "he".data).2
        = { input := "hello".data, idx := 0 })
    ∧ ((Position.matchStrB { input := "hello".data, idx := 0 } "he".data).1 = true →
      (Position.matchStrB { input := "hello".data, idx := 0 } "he".data).2
          = { input := "hello".data, idx := 0 + "he".data.length }
        ∧ ("hello".data.drop 0).take "he".data.length = "he".data) :=
  c8_match_str_atomicity "hello".data "he".data 0 (by decide)

/-- C10: on `a = b c;` the production parser succeeds, consuming the whole
input and yielding lhs `a` with rhs `Identifier b`: the rhs fragment between
`=` and `;` is parsed only up to a leading prefix (`b`), and the unconsumed
` c` is silently discarded rather than causing a failure. -/
theorem c10_production_discards_rhs_tail :
    production "a = b c;".data
      = some ([], { lhs := ['a'], rhs := Rhs.Identifier ['b'] }) := by
  decide

/-- C2 counterexample: the constructively valid value `[ [ a ] ]`
(`Optional (Optional (Identifier a))`) does not round-trip: printing gives
`"[ [ a ] ]"`, whose parse fails (the outer `take_until("]")` stops at the
inner `]`), so `from_str` returns `None`, not the original value. -/
theorem c2_nested_optional_no_roundtrip :
    Rhs.fromStr (printRhs (Rhs.Optional (Rhs.Optional (Rhs.Identifier ['a']))))
      ≠ some (Rhs.Optional (Rhs.Optional (Rhs.Identifier ['a']))) := by
  decide

/-- C3: the claim says the code generator lowers `Terminal(t)` to
`state.match_str(t)` with the raw terminal text.  The code instead emits the
text wrapped in two pairs of double quotes (one from `Terminal`'s `Display`,
one from the `format!`): for `t = "b"` the emitted argument is the five
characters `""b""`, the generated body fails on input `"b"` (which does start
with the bytes of `t`), and succeeds only on input starting with `""b""`. -/
theorem c3_terminal_lowering_double_quotes :
    genTerminalMatchArg ['b'] = ['"', '"', 'b', '"', '"']
    ∧ State.matchStr ({ tokens := [], cursor := { input := ['b'], idx := 0 } } : State AbRule)
        (genTerminalMatchArg ['b'])
        = .Err { tokens := [], cursor := { input := ['b'], idx := 0 } }
    ∧ State.matchStr
        ({ tokens := [], cursor := { input := ['"', '"', 'b', '"', '"'], idx := 0 } } : State AbRule)
        (genTerminalMatchArg ['b'])
        = .Ok { tokens := [], cursor := { input := ['"', '"', 'b', '"', '"'], idx := 5 } } := by
  decide

/-- C9: `grammar_from_ast` counts the attributes naming a grammar source
(`ebnf_file` or `ebnf_inline`): zero such attributes yield
`Err(MissingGrammarSource)`, more than one yields
`Err(MultipleGrammarSources)`, and exactly one proceeds to materialize and
parse that source. -/
theorem c9_grammar_source_count :
    ∀ (readFile : List Char → Option (List Char)) (attrs : List AttrMeta),
      ((attrs.filter isGrammarSource).length = 0 →
        grammarFromAst readFile attrs = some (.error .MissingGrammarSource))
      ∧ (∀ a, attrs.filter isGrammarSource = [a] →
          grammarFromAst readFile attrs = materializeSource readFile a)
      ∧ (1 < (attrs.filter isGrammarSource).length →
          grammarFromAst readFile attrs = some (.error .MultipleGrammarSources)) := by
  intro readFile attrs
  refine ⟨?_, ?_, ?_⟩
  · intro h
    unfold grammarFromAst
    rw [List.length_eq_zero.mp h]
  · intro a h
    unfold grammarFromAst
    rw [h]
  · intro h
    unfold grammarFromAst
    match hf : attrs.filter isGrammarSource with
    | [] => rw [hf] at h; simp at h
    | [a] => rw [hf] at h; simp at h
    | _ :: _ :: _ => rfl

/-- C9 witness: the three conjuncts applied to a concrete attribute list with
two grammar sources, so the multiple-sources branch fires. -/
theorem c9_grammar_source_count_witness :
    (((([AttrMeta.NameValueStr ebnfInlineAttr "a = b ;".data,
         AttrMeta.NameValueStr ebnfFileAttr "g.ebnf".data] : List AttrMeta).filter
          isGrammarSource).length = 0 →
        grammarFromAst (fun _ => none)
            [AttrMeta.NameValueStr ebnfInlineAttr "a = b ;".data,
             AttrMeta.NameValueStr ebnfFileAttr "g.ebnf".data]
          = some (.error .MissingGrammarSource))
      ∧ (∀ a, ([AttrMeta.NameValueStr ebnfInlineAttr "a = b ;".data,
                AttrMeta.NameValueStr ebnfFileAttr "g.ebnf".data] : List AttrMeta).filter
            isGrammarSource = [a] →
          grammarFromAst (fun _ => none)
              [AttrMeta.NameValueStr ebnfInlineAttr "a = b ;".data,
               AttrMeta.NameValueStr ebnfFileAttr "g.ebnf".data]
            = materializeSource (fun _ => none) a)
      ∧ (1 < ((([AttrMeta.NameValueStr ebnfInlineAttr "a = b ;".data,
                 AttrMeta.NameValueStr ebnfFileAttr "g.ebnf".data] : List AttrMeta).filter
                  isGrammarSource).length) →
          grammarFromAst (fun _ => none)
              [AttrMeta.NameValueStr ebnfInlineAttr "a = b ;".data,
               AttrMeta.NameValueStr ebnfFileAttr "g.ebnf".data]
            = some (.error .MultipleGrammarSources)))
    ∧ grammarFromAst (fun _ => none)
        [AttrMeta.NameValueStr ebnfInlineAttr "a = b ;".data,
         AttrMeta.NameValueStr ebnfFileAttr "g.ebnf".data]
      = some (.error .MultipleGrammarSources) :=
  have h := c9_grammar_source_count (fun _ => none)
    [AttrMeta.NameValueStr ebnfInlineAttr "a = b ;".data,
     AttrMeta.NameValueStr ebnfFileAttr "g.ebnf".data]
  ⟨h, h.2.2 (by decide)⟩

/-- Helper: `tag` succeeds on its own text followed by anything. -/
theorem tagP_append (t l : List Char) : tagP t (t ++ l) = some (l, t) := by
  simp [tagP, List.isPrefixOf_iff_prefix, List.prefix_append, List.drop_left]

/-- Helper: a head-character mismatch makes `tag` fail. -/
theorem tagP_cons_ne (d c : Char) (e l : List Char) (h : d ≠ c) :
    tagP (d :: e) (c :: l) = none := by
  simp [tagP, List.isPrefixOf, h]

/-- Helper: `tag` of a nonempty text fails on empty input. -/
theorem tagP_nil (d : Char) (e : List Char) : tagP (d :: e) [] = none := by
  simp [tagP, List.isPrefixOf]

/-- Helper: a single-character `tag` consumes exactly its character. -/
theorem tagP_single_cons_eq (d : Char) (l : List Char) :
    tagP [d] (d :: l) = some (l, [d]) := by
  simp [tagP, List.isPrefixOf]

/-- Helper: `take_until` for an absent single-character pattern fails. -/
theorem takeUntil_not_mem (d : Char) (i : List Char) (h : d ∉ i) :
    takeUntil [d] i = none := by
  induction i with
  | nil => simp [takeUntil, List.isPrefixOf]
  | cons c rest ih =>
    have hdc : d ≠ c := fun e => h (e ▸ List.mem_cons_self c rest)
    have hdr : d ∉ rest := fun e => h (List.mem_cons_of_mem c e)
    simp [takeUntil, List.isPrefixOf, hdc, ih hdr]

/-- Helper: `take_until` splits at the first occurrence of its pattern. -/
theorem takeUntil_split (d : Char) (m rest : List Char) (h : d ∉ m) :
    takeUntil [d] (m ++ d :: rest) = some (d :: rest, m) := by
  induction m with
  | nil => simp [takeUntil, List.isPrefixOf]
  | cons c m' ih =>
    have hdc : d ≠ c := fun e => h (e ▸ List.mem_cons_self c m')
    have hdm : d ∉ m' := fun e => h (List.mem_cons_of_mem c e)
    simp [takeUntil, List.isPrefixOf, hdc, ih hdm]

/-- Helper: `takeWhile` ignores a suffix whose head fails the predicate. -/
theorem takeWhile_append_stop (p : Char → Bool) (y s : List Char)
    (hs : ∀ c, s.head? = some c → p c = false) :
    (y ++ s).takeWhile p = y.takeWhile p := by
  induction y with
  | nil =>
    cases s with
    | nil => simp
    | cons c s' => simp [List.takeWhile_cons, hs c rfl]
  | cons a y' ih =>
    by_cases hpa : p a
    · simp [List.takeWhile_cons, hpa, ih]
    · simp [List.takeWhile_cons, hpa]

/-- Helper: `dropWhile` passes such a suffix through unchanged. -/
theorem dropWhile_append_stop (p : Char → Bool) (y s : List Char)
    (hs : ∀ c, s.head? = some c → p c = false) :
    (y ++ s).dropWhile p = y.dropWhile p ++ s := by
  induction y with
  | nil =>
    cases s with
    | nil => simp
    | cons c s' => simp [List.dropWhile_cons, hs c rfl]
  | cons a y' ih =>
    by_cases hpa : p a
    · simp [List.dropWhile_cons, hpa, ih]
    · simp [List.dropWhile_cons, hpa]

/-- Helper: first-branch failure reduces `alt` to the second branch. -/
theorem orElse_none {α : Type} (p q : Parser α) (i : List Char) (h : p i = none) :
    orElse p q i = q i := by
  simp [orElse, h]

/-- Helper: first-branch success decides `alt`. -/
theorem orElse_some {α : Type} (p q : Parser α) (i : List Char) (r : List Char × α)
    (h : p i = some r) : orElse p q i = some r := by
  simp [orElse, h]

/-- Helper: identifier head characters are identifier characters. -/
theorem identHeadChar_identChar (c : Char) (h : identHeadChar c = true) :
    identChar c = true := by
  simp only [identHeadChar, Bool.or_eq_true] at h
  simp only [identChar, Char.isAlphanum, Bool.or_eq_true]
  rcases h with h | h
  · exact Or.inl (Or.inl h)
  · exact Or.inr h

/-- Helper: every character of a well-formed identifier is an identifier
character. -/
theorem wf_all_identChar (x : List Char) (hx : wfIdent x = true) :
    ∀ c ∈ x, identChar c = true := by
  cases x with
  | nil => simp [wfIdent] at hx
  | cons c rest =>
    simp only [wfIdent, Bool.and_eq_true, List.all_eq_true] at hx
    intro d hd
    rcases List.mem_cons.mp hd with rfl | hdr
    · exact identHeadChar_identChar d hx.1
    · exact hx.2 d hdr

/-- Helper: two characters on opposite sides of `identChar` differ. -/
theorem identChar_ne (c d : Char) (h : identChar c = true) (hd : identChar d = false) :
    c ≠ d := by
  rintro rfl
  rw [h] at hd
  cases hd

/-- Helper: a non-identifier character does not occur in a well-formed
identifier. -/
theorem wf_not_mem (x : List Char) (hx : wfIdent x = true) (d : Char)
    (hd : identChar d = false) : d ∉ x := by
  intro hm
  exact identChar_ne d d (wf_all_identChar x hx d hm) hd rfl

/-- Helper: `contains` being false is non-membership. -/
theorem contains_false_not_mem (l : List Char) (d : Char) (h : l.contains d = false) :
    d ∉ l := by
  simp at h
  exact h

/-- Helper: a metacharacter does not occur in a safe terminal text. -/
theorem safeTerm_not_mem (t : List Char) (ht : t.all safeTermChar = true) (d : Char)
    (hd : d ∈ ebnfSpecials) : d ∉ t := by
  intro hm
  have h := List.all_eq_true.mp ht d hm
  simp only [safeTermChar, Bool.not_eq_true'] at h
  exact contains_false_not_mem _ _ h hd

/-- Inversion of `validRhs` at `Optional`. -/
theorem validRhs_opt (r : Rhs) (h : validRhs (.Optional r) = true) :
    validRhs r = true ∧ ']' ∉ printRhs r := by
  simp only [validRhs, Bool.and_eq_true, Bool.not_eq_true'] at h
  exact ⟨h.1, contains_false_not_mem _ _ h.2⟩

/-- Inversion of `validRhs` at `Repeat`. -/
theorem validRhs_rep (r : Rhs) (h : validRhs (.Repeat r) = true) :
    validRhs r = true ∧ rbrace ∉ printRhs r := by
  simp only [validRhs, Bool.and_eq_true, Bool.not_eq_true'] at h
  exact ⟨h.1, contains_false_not_mem _ _ h.2⟩

/-- Inversion of `validRhs` at `Group`. -/
theorem validRhs_grp (r : Rhs) (h : validRhs (.Group r) = true) :
    validRhs r = true ∧ ')' ∉ printRhs r := by
  simp only [validRhs, Bool.and_eq_true, Bool.not_eq_true'] at h
  exact ⟨h.1, contains_false_not_mem _ _ h.2⟩

/-- Inversion of `validRhs` at `Alternation`. -/
theorem validRhs_alt (a b : Rhs) (h : validRhs (.Alternation a b) = true) :
    validRhs a = true ∧ validRhs b = true ∧ headAtomOk a = true ∧ '|' ∉ printRhs a := by
  simp only [validRhs, Bool.and_eq_true, Bool.not_eq_true'] at h
  exact ⟨h.1.1.1, h.1.1.2, h.1.2, contains_false_not_mem _ _ h.2⟩

/-- Inversion of `validRhs` at `Concatenation`. -/
theorem validRhs_cat (a b : Rhs) (h : validRhs (.Concatenation a b) = true) :
    validRhs a = true ∧ validRhs b = true ∧ headAtomOk a = true ∧
      '|' ∉ printRhs a ∧ '|' ∉ printRhs b ∧ ',' ∉ printRhs a := by
  simp only [validRhs, Bool.and_eq_true, Bool.not_eq_true'] at h
  exact ⟨h.1.1.1.1.1, h.1.1.1.1.2, h.1.1.1.2, contains_false_not_mem _ _ h.1.1.2,
    contains_false_not_mem _ _ h.1.2, contains_false_not_mem _ _ h.2⟩

/-- Inversion of `validRhs` at `Exception`. -/
theorem validRhs_exc (a b : Rhs) (h : validRhs (.Exception a b) = true) :
    validRhs a = true ∧ validRhs b = true ∧ headAtomOk a = true ∧
      '|' ∉ printRhs a ∧ '|' ∉ printRhs b ∧ ',' ∉ printRhs a ∧ ',' ∉ printRhs b ∧
      '-' ∉ printRhs a := by
  simp only [validRhs, Bool.and_eq_true, Bool.not_eq_true'] at h
  exact ⟨h.1.1.1.1.1.1.1, h.1.1.1.1.1.1.2, h.1.1.1.1.1.2,
    contains_false_not_mem _ _ h.1.1.1.1.2, contains_false_not_mem _ _ h.1.1.1.2,
    contains_false_not_mem _ _ h.1.1.2, contains_false_not_mem _ _ h.1.2,
    contains_false_not_mem _ _ h.2⟩

/-- Helper: a good tail contains only spaces. -/
theorem goodTail_not_mem (s : List Char) (hs : goodTail s) (d : Char) (hd : d ≠ ' ') :
    d ∉ s := by
  rcases hs with rfl | rfl
  · simp
  · simp [hd]

/-- Helper: a good tail never starts with an identifier character. -/
theorem goodTail_headNotIdent (s : List Char) (hs : goodTail s) :
    ∀ c, s.head? = some c → identChar c = false := by
  rcases hs with rfl | rfl
  · intro c hc
    cases hc
  · intro c hc
    simp only [List.head?_cons, Option.some.injEq] at hc
    subst hc
    decide

/-- Helper: an atom-headed valid rhs prints as an identifier character or a
quote followed by the rest. -/
theorem headAtom_head (r : Rhs) (hv : validRhs r = true) (ha : headAtomOk r = true) :
    ∃ c rest, printRhs r = c :: rest ∧ (identHeadChar c = true ∨ c = '"') := by
  induction r with
  | Identifier x =>
    cases x with
    | nil => simp [validRhs, wfIdent] at hv
    | cons c x' =>
      simp only [validRhs, wfIdent, Bool.and_eq_true] at hv
      exact ⟨c, x', rfl, Or.inl hv.1⟩
  | Terminal t => exact ⟨'"', t ++ ['"'], rfl, Or.inr rfl⟩
  | Optional r ih => simp [headAtomOk] at ha
  | Repeat r ih => simp [headAtomOk] at ha
  | Group r ih => simp [headAtomOk] at ha
  | Exception a b iha ihb =>
    obtain ⟨c, rest, hp, hc⟩ := iha (validRhs_exc a b hv).1 ha
    exact ⟨c, rest ++ (' ' :: '-' :: ' ' :: printRhs b), by simp [printRhs, hp], hc⟩
  | Alternation a b iha ihb =>
    obtain ⟨c, rest, hp, hc⟩ := iha (validRhs_alt a b hv).1 ha
    exact ⟨c, rest ++ (' ' :: '|' :: ' ' :: printRhs b), by simp [printRhs, hp], hc⟩
  | Concatenation a b iha ihb =>
    obtain ⟨c, rest, hp, hc⟩ := iha (validRhs_cat a b hv).1 ha
    exact ⟨c, rest ++ (' ' :: ',' :: ' ' :: printRhs b), by simp [printRhs, hp], hc⟩

/-- Helper: an atom head character is not a bracket opener, not a space and
not a quote-or-bracket relevant to the earlier branches. -/
theorem atomHead_ne (c : Char) (h : identHeadChar c = true ∨ c = '"') :
    c ≠ '(' ∧ c ≠ '[' ∧ c ≠ lbrace ∧ (c == ' ' || c == '\t') = false := by
  rcases h with h | rfl
  · refine ⟨?_, ?_, ?_, ?_⟩
    · rintro rfl; revert h; decide
    · rintro rfl; revert h; decide
    · rintro rfl; revert h; decide
    · have h1 : c ≠ ' ' := by rintro rfl; revert h; decide
      have h2 : c ≠ '\t' := by rintro rfl; revert h; decide
      simp [h1, h2]
  · refine ⟨by decide, by decide, by decide, by decide⟩

/-- Equation for `many0Go` when the inner parser consumes. -/
theorem many0Go_step {α : Type} (p : Parser α) (fuel : Nat) (i i1 : List Char) (a : α)
    (hp : p i = some (i1, a)) (hlt : i1.length < i.length) :
    many0Go p (fuel + 1) i
      = (match many0Go p fuel i1 with
        | some (rem, rest) => some (rem, a :: rest)
        | none => none) := by
  simp only [many0Go, hp]
  rw [if_neg (by omega)]

/-- Equation for `many0Go` when the inner parser fails. -/
theorem many0Go_stop {α : Type} (p : Parser α) (fuel : Nat) (i : List Char)
    (hp : p i = none) : many0Go p (fuel + 1) i = some (i, []) := by
  simp [many0Go, hp]

/-- Equation for `pair` on two successes. -/
theorem pairP_eq {α β : Type} (p : Parser α) (q : Parser β) (i i1 i2 : List Char)
    (a : α) (b : β) (hp : p i = some (i1, a)) (hq : q i1 = some (i2, b)) :
    pairP p q i = some (i2, (a, b)) := by
  simp [pairP, hp, hq]

/-- Equation for `recognize` on a success. -/
theorem recognizeP_eq {α : Type} (p : Parser α) (i i1 : List Char) (a : α)
    (hp : p i = some (i1, a)) :
    recognizeP p i = some (i1, i.take (i.length - i1.length)) := by
  simp [recognizeP, hp]

/-- Equation for `preceded` on a first success. -/
theorem preceded_eq {α β : Type} (p : Parser α) (q : Parser β) (i i1 : List Char) (a : α)
    (hp : p i = some (i1, a)) : preceded p q i = q i1 := by
  simp [preceded, hp]

/-- Equation for `terminated` on two successes. -/
theorem terminated_eq {α β : Type} (p : Parser α) (q : Parser β) (i i1 i2 : List Char)
    (a : α) (b : β) (hp : p i = some (i1, a)) (hq : q i1 = some (i2, b)) :
    terminated p q i = some (i2, a) := by
  simp [terminated, hp, hq]

/-- Equation for `delimited` on three successes. -/
theorem delimited_eq {α β γ : Type} (p : Parser α) (q : Parser β) (r : Parser γ)
    (i i1 i2 i3 : List Char) (a : α) (b : β) (c : γ) (hp : p i = some (i1, a))
    (hq : q i1 = some (i2, b)) (hr : r i2 = some (i3, c)) :
    delimited p q r i = some (i3, b) := by
  simp [delimited, hp, hq, hr]

/-- Equation for `separated_pair` on three successes. -/
theorem separatedPair_eq {α β γ : Type} (p : Parser α) (sep : Parser β) (q : Parser γ)
    (i i1 i2 i3 : List Char) (a : α) (b : β) (c : γ) (hp : p i = some (i1, a))
    (hsep : sep i1 = some (i2, b)) (hq : q i2 = some (i3, c)) :
    separatedPair p sep q i = some (i3, (a, c)) := by
  simp [separatedPair, hp, hsep, hq]

/-- Failure of `delimited` at its opening parser. -/
theorem delimited_none_fst {α β γ : Type} (p : Parser α) (q : Parser β) (r : Parser γ)
    (i : List Char) (hp : p i = none) : delimited p q r i = none := by
  simp [delimited, hp]

/-- Failure of `separated_pair` at its first parser. -/
theorem separatedPair_none_fst {α β γ : Type} (p : Parser α) (sep : Parser β)
    (q : Parser γ) (i : List Char) (hp : p i = none) : separatedPair p sep q i = none := by
  simp [separatedPair, hp]

/-- Helper: a non-identifier character is not alphanumeric. -/
theorem identChar_false_alnum (c : Char) (h : identChar c = false) :
    c.isAlphanum = false := by
  simp only [identChar, Bool.or_eq_false_iff] at h
  exact h.1

/-- Helper: a non-identifier character is not a letter. -/
theorem identChar_false_alpha (c : Char) (h : identChar c = false) :
    c.isAlpha = false := by
  have h2 := identChar_false_alnum c h
  simp only [Char.isAlphanum, Bool.or_eq_false_iff] at h2
  exact h2.1

/-- Helper: a non-identifier character is not the underscore. -/
theorem identChar_false_ne_underscore (c : Char) (h : identChar c = false) : '_' ≠ c := by
  rintro rfl
  revert h
  decide

/-- Helper: the identifier-tail parser fails on input that does not start
with an identifier character. -/
theorem altAN_stop (s : List Char) (hs : ∀ c, s.head? = some c → identChar c = false) :
    orElse alphanumeric1 (tagP ['_']) s = none := by
  cases s with
  | nil => rfl
  | cons c s' =>
    have hc := hs c rfl
    have h1 : alphanumeric1 (c :: s') = none := by
      simp [alphanumeric1, List.takeWhile_cons, identChar_false_alnum c hc]
    have h2 : tagP ['_'] (c :: s') = none :=
      tagP_cons_ne '_' c [] s' (identChar_false_ne_underscore c hc)
    simp [orElse, h1, h2]

/-- Helper: `many0` of the identifier-tail parser consumes exactly a run of
identifier characters, stopping at a non-identifier head. -/
theorem many0_identTail (s : List Char) (hs : ∀ c, s.head? = some c → identChar c = false) :
    ∀ (fuel : Nat) (y : List Char), (∀ c ∈ y, identChar c = true) → y.length < fuel →
      ∃ os, many0Go (orElse alphanumeric1 (tagP ['_'])) fuel (y ++ s) = some (s, os) := by
  intro fuel
  induction fuel with
  | zero =>
    intro y hy hlen
    omega
  | succ fuel ih =>
    intro y hy hlen
    cases y with
    | nil =>
      exact ⟨[], many0Go_stop _ _ _ (altAN_stop s hs)⟩
    | cons c y' =>
      have hc : identChar c = true := hy c (List.mem_cons_self c y')
      by_cases halnum : c.isAlphanum = true
      · have hstop : ∀ d, s.head? = some d → Char.isAlphanum d = false :=
          fun d hd => identChar_false_alnum d (hs d hd)
        have htw : List.takeWhile Char.isAlphanum (c :: (y' ++ s))
            = c :: y'.takeWhile Char.isAlphanum := by
          rw [List.takeWhile_cons]
          simp only [halnum, if_true]
          rw [takeWhile_append_stop _ _ s hstop]
        have hdw : List.dropWhile Char.isAlphanum (c :: (y' ++ s))
            = y'.dropWhile Char.isAlphanum ++ s := by
          rw [List.dropWhile_cons]
          simp only [halnum, if_true]
          rw [dropWhile_append_stop _ _ s hstop]
        have ha1 : alphanumeric1 (c :: (y' ++ s))
            = some (y'.dropWhile Char.isAlphanum ++ s, c :: y'.takeWhile Char.isAlphanum) := by
          simp only [alphanumeric1, htw, hdw]
          simp
        have hzsub : ∀ d ∈ y'.dropWhile Char.isAlphanum, identChar d = true := fun d hd =>
          hy d (List.mem_cons_of_mem c ((List.dropWhile_sublist _).mem hd))
        have hzlen : (y'.dropWhile Char.isAlphanum).length ≤ y'.length := by
          simpa using (List.dropWhile_sublist (l := y') (p := Char.isAlphanum)).length_le
        have hlt : (y'.dropWhile Char.isAlphanum).length < fuel := by
          simp only [List.length_cons] at hlen
          omega
        obtain ⟨os, ho⟩ := ih (y'.dropWhile Char.isAlphanum) hzsub hlt
        refine ⟨(c :: y'.takeWhile Char.isAlphanum) :: os, ?_⟩
        have horr : orElse alphanumeric1 (tagP ['_']) (c :: (y' ++ s))
            = some (y'.dropWhile Char.isAlphanum ++ s, c :: y'.takeWhile Char.isAlphanum) :=
          orElse_some _ _ _ _ ha1
        have hstep := many0Go_step (orElse alphanumeric1 (tagP ['_'])) fuel
          (c :: (y' ++ s)) (y'.dropWhile Char.isAlphanum ++ s)
          (c :: y'.takeWhile Char.isAlphanum) horr
          (by simp; omega)
        rw [List.cons_append, hstep, ho]
      · have hu : c = '_' := by
          simp only [identChar, Bool.or_eq_true] at hc
          rcases hc with hc | hc
          · exact absurd hc (by simp [halnum])
          · exact eq_of_beq hc
        subst hu
        have ha1 : alphanumeric1 ('_' :: (y' ++ s)) = none := by
          simp [alphanumeric1, List.takeWhile_cons]
        have horr : orElse alphanumeric1 (tagP ['_']) ('_' :: (y' ++ s))
            = some (y' ++ s, ['_']) := by
          rw [orElse_none _ _ _ ha1, tagP_single_cons_eq]
        have hlt : y'.length < fuel := by
          simp only [List.length_cons] at hlen
          omega
        obtain ⟨os, ho⟩ := ih y' (fun d hd => hy d (List.mem_cons_of_mem _ hd)) hlt
        refine ⟨['_'] :: os, ?_⟩
        have hstep := many0Go_step (orElse alphanumeric1 (tagP ['_'])) fuel
          ('_' :: (y' ++ s)) (y' ++ s) ['_'] horr
          (by simp)
        rw [List.cons_append, hstep, ho]

/-- Helper: `identifier` on a well-formed identifier followed by a
non-identifier tail consumes exactly the identifier. -/
theorem identifier_print (x s : List Char) (hx : wfIdent x = true)
    (hs : ∀ c, s.head? = some c → identChar c = false) :
    identifier (x ++ s) = some (s, x) := by
  cases x with
  | nil => simp [wfIdent] at hx
  | cons c x' =>
    simp only [wfIdent, Bool.and_eq_true, List.all_eq_true] at hx
    obtain ⟨hhead, hall⟩ := hx
    have hlen : (c :: (x' ++ s)).length - s.length = (c :: x').length := by
      simp only [List.length_append, List.length_cons]
      omega
    have htake : (c :: (x' ++ s)).take (c :: x').length = c :: x' := by
      have := List.take_left (c :: x') s
      rwa [List.cons_append] at this
    by_cases ha : c.isAlpha = true
    · have hstop : ∀ d, s.head? = some d → Char.isAlpha d = false :=
        fun d hd => identChar_false_alpha d (hs d hd)
      have htw : List.takeWhile Char.isAlpha (c :: (x' ++ s))
          = c :: x'.takeWhile Char.isAlpha := by
        rw [List.takeWhile_cons]
        simp only [ha, if_true]
        rw [takeWhile_append_stop _ _ s hstop]
      have hdw : List.dropWhile Char.isAlpha (c :: (x' ++ s))
          = x'.dropWhile Char.isAlpha ++ s := by
        rw [List.dropWhile_cons]
        simp only [ha, if_true]
        rw [dropWhile_append_stop _ _ s hstop]
      have ha1 : alpha1 (c :: (x' ++ s))
          = some (x'.dropWhile Char.isAlpha ++ s, c :: x'.takeWhile Char.isAlpha) := by
        simp only [alpha1, htw, hdw]
        simp
      have hzsub : ∀ d ∈ x'.dropWhile Char.isAlpha, identChar d = true := fun d hd =>
        hall d ((List.dropWhile_sublist _).mem hd)
      obtain ⟨os, ho⟩ := many0_identTail s hs ((x'.dropWhile Char.isAlpha ++ s).length + 1)
        (x'.dropWhile Char.isAlpha) hzsub (by simp; omega)
      have hfst : orElse alpha1 (tagP ['_']) (c :: (x' ++ s))
          = some (x'.dropWhile Char.isAlpha ++ s, c :: x'.takeWhile Char.isAlpha) :=
        orElse_some _ _ _ _ ha1
      have hpair := pairP_eq (orElse alpha1 (tagP ['_']))
        (many0 (orElse alphanumeric1 (tagP ['_']))) (c :: (x' ++ s))
        (x'.dropWhile Char.isAlpha ++ s) s (c :: x'.takeWhile Char.isAlpha) os hfst ho
      have hrec := recognizeP_eq _ _ _ _ hpair
      rw [List.cons_append, identifier] at *
      rw [hrec, hlen, htake]
    · have hu : c = '_' := by
        simp only [identHeadChar, Bool.or_eq_true] at hhead
        rcases hhead with hh | hh
        · exact absurd hh (by simp [ha])
        · exact eq_of_beq hh
      subst hu
      have ha1 : alpha1 ('_' :: (x' ++ s)) = none := by
        simp [alpha1, List.takeWhile_cons]
      obtain ⟨os, ho⟩ := many0_identTail s hs ((x' ++ s).length + 1) x'
        (fun d hd => hall d hd) (by simp; omega)
      have hfst : orElse alpha1 (tagP ['_']) ('_' :: (x' ++ s)) = some (x' ++ s, ['_']) := by
        rw [orElse_none _ _ _ ha1, tagP_single_cons_eq]
      have hpair := pairP_eq (orElse alpha1 (tagP ['_']))
        (many0 (orElse alphanumeric1 (tagP ['_']))) ('_' :: (x' ++ s))
        (x' ++ s) s ['_'] os hfst ho
      have hrec := recognizeP_eq _ _ _ _ hpair
      rw [List.cons_append, identifier] at *
      rw [hrec, hlen, htake]

/-- Helper: `rhs` at positive budget drops one leading space. -/
theorem rhsF_cons_space (fuel : Nat) (l : List Char) :
    rhsF (fuel + 1) (' ' :: l) = rhsF (fuel + 1) l := by
  simp [rhsF, preceded, space0, takeWhileP, List.dropWhile_cons]

/-- Helper: `rhs` at positive budget on space-free-headed input is the branch
cascade. -/
theorem rhsF_no_space (fuel : Nat) (i : List Char)
    (hh : ∀ c, i.head? = some c → (c == ' ' || c == '\t') = false) :
    rhsF (fuel + 1) i = rhsAlt (rhsF fuel) i := by
  cases i with
  | nil => rfl
  | cons c l =>
    simp [rhsF, preceded, space0, takeWhileP, List.dropWhile_cons, hh c rfl]

/-- Helper: the group branch fails unless the input starts with `(`. -/
theorem rhsGroupP_none (rec : Parser Rhs) (i : List Char) (h : tagP ['('] i = none) :
    rhsGroupP rec i = none := by
  simp [rhsGroupP, delimited_none_fst _ _ _ _ h]

/-- Helper: the repetition branch fails unless the input starts with a brace. -/
theorem rhsRepetitionP_none (rec : Parser Rhs) (i : List Char)
    (h : tagP [lbrace] i = none) : rhsRepetitionP rec i = none := by
  simp [rhsRepetitionP, delimited_none_fst _ _ _ _ h]

/-- Helper: the optional branch fails unless the input starts with `[`. -/
theorem rhsOptionalP_none (rec : Parser Rhs) (i : List Char) (h : tagP ['['] i = none) :
    rhsOptionalP rec i = none := by
  simp [rhsOptionalP, delimited_none_fst _ _ _ _ h]

/-- Helper: the alternation branch fails when the input has no `|`. -/
theorem rhsAlternationP_none (rec : Parser Rhs) (i : List Char) (h : '|' ∉ i) :
    rhsAlternationP rec i = none := by
  simp [rhsAlternationP, separatedPair_none_fst _ _ _ _ (takeUntil_not_mem '|' i h)]

/-- Helper: the concatenation branch fails when the input has no `,`. -/
theorem rhsConcatenationP_none (rec : Parser Rhs) (i : List Char) (h : ',' ∉ i) :
    rhsConcatenationP rec i = none := by
  simp [rhsConcatenationP, separatedPair_none_fst _ _ _ _ (takeUntil_not_mem ',' i h)]

/-- Helper: the exception branch fails when the input has no `-`. -/
theorem rhsExceptionP_none (rec : Parser Rhs) (i : List Char) (h : '-' ∉ i) :
    rhsExceptionP rec i = none := by
  simp [rhsExceptionP, separatedPair_none_fst _ _ _ _ (takeUntil_not_mem '-' i h)]

/-- Helper: the terminal branch fails unless the input starts with a quote. -/
theorem rhsTerminalP_none (i : List Char) (h1 : tagP ['"'] i = none)
    (h2 : tagP [squote] i = none) : rhsTerminalP i = none := by
  simp [rhsTerminalP, terminal, orElse, delimited_none_fst _ _ _ _ h1,
    delimited_none_fst _ _ _ _ h2]

/-- Helper: the terminal branch consumes a printed terminal exactly. -/
theorem rhsTerminalP_print (t s : List Char) (hq : '"' ∉ t) :
    rhsTerminalP ('"' :: (t ++ '"' :: s)) = some (s, .Terminal t) := by
  have h1 : tagP ['"'] ('"' :: (t ++ '"' :: s)) = some (t ++ '"' :: s, ['"']) :=
    tagP_single_cons_eq _ _
  have h2 : takeUntil ['"'] (t ++ '"' :: s) = some ('"' :: s, t) :=
    takeUntil_split _ _ _ hq
  have h3 : tagP ['"'] ('"' :: s) = some (s, ['"']) := tagP_single_cons_eq _ _
  have hd := delimited_eq (tagP ['"']) (takeUntil ['"']) (tagP ['"'])
    ('"' :: (t ++ '"' :: s)) (t ++ '"' :: s) ('"' :: s) s ['"'] t ['"'] h1 h2 h3
  simp [rhsTerminalP, terminal, orElse_some _ _ _ _ hd]

/-- Helper: the optional branch on a printed optional body. -/
theorem rhsOptionalP_print (rec : Parser Rhs) (m s rem' : List Char) (r' : Rhs)
    (hm : ']' ∉ m) (hrec : rec m = some (rem', r')) :
    rhsOptionalP rec ('[' :: (m ++ ']' :: s)) = some (s, .Optional r') := by
  have h1 : tagP ['['] ('[' :: (m ++ ']' :: s)) = some (m ++ ']' :: s, ['[']) :=
    tagP_single_cons_eq _ _
  have h2 : takeUntil [']'] (m ++ ']' :: s) = some (']' :: s, m) := takeUntil_split _ _ _ hm
  have h3 : tagP [']'] (']' :: s) = some (s, [']']) := tagP_single_cons_eq _ _
  have hd := delimited_eq (tagP ['[']) (takeUntil [']']) (tagP [']'])
    ('[' :: (m ++ ']' :: s)) (m ++ ']' :: s) (']' :: s) s ['['] m [']'] h1 h2 h3
  simp [rhsOptionalP, hd, hrec]

/-- Helper: the repetition branch on a printed repetition body. -/
theorem rhsRepetitionP_print (rec : Parser Rhs) (m s rem' : List Char) (r' : Rhs)
    (hm : rbrace ∉ m) (hrec : rec m = some (rem', r')) :
    rhsRepetitionP rec (lbrace :: (m ++ rbrace :: s)) = some (s, .Repeat r') := by
  have h1 : tagP [lbrace] (lbrace :: (m ++ rbrace :: s))
      = some (m ++ rbrace :: s, [lbrace]) := tagP_single_cons_eq _ _
  have h2 : takeUntil [rbrace] (m ++ rbrace :: s) = some (rbrace :: s, m) :=
    takeUntil_split _ _ _ hm
  have h3 : tagP [rbrace] (rbrace :: s) = some (s, [rbrace]) := tagP_single_cons_eq _ _
  have hd := delimited_eq (tagP [lbrace]) (takeUntil [rbrace]) (tagP [rbrace])
    (lbrace :: (m ++ rbrace :: s)) (m ++ rbrace :: s) (rbrace :: s) s
    [lbrace] m [rbrace] h1 h2 h3
  simp [rhsRepetitionP, hd, hrec]

/-- Helper: the group branch on a printed group body. -/
theorem rhsGroupP_print (rec : Parser Rhs) (m s rem' : List Char) (r' : Rhs)
    (hm : ')' ∉ m) (hrec : rec m = some (rem', r')) :
    rhsGroupP rec ('(' :: (m ++ ')' :: s)) = some (s, .Group r') := by
  have h1 : tagP ['('] ('(' :: (m ++ ')' :: s)) = some (m ++ ')' :: s, ['(']) :=
    tagP_single_cons_eq _ _
  have h2 : takeUntil [')'] (m ++ ')' :: s) = some (')' :: s, m) := takeUntil_split _ _ _ hm
  have h3 : tagP [')'] (')' :: s) = some (s, [')']) := tagP_single_cons_eq _ _
  have hd := delimited_eq (tagP ['(']) (takeUntil [')']) (tagP [')'])
    ('(' :: (m ++ ')' :: s)) (m ++ ')' :: s) (')' :: s) s ['('] m [')'] h1 h2 h3
  simp [rhsGroupP, hd, hrec]

/-- Helper: the alternation branch splits a printed alternation at its
operator. -/
theorem rhsAlternationP_print (rec : Parser Rhs) (m rest s rem' : List Char) (a b : Rhs)
    (hm : '|' ∉ m) (hleft : rec m = some (rem', a)) (hright : rec rest = some (s, b)) :
    rhsAlternationP rec (m ++ '|' :: rest) = some (s, .Alternation a b) := by
  have h1 : takeUntil ['|'] (m ++ '|' :: rest) = some ('|' :: rest, m) :=
    takeUntil_split _ _ _ hm
  have h2 : tagP ['|'] ('|' :: rest) = some (rest, ['|']) := tagP_single_cons_eq _ _
  have hsep := separatedPair_eq (takeUntil ['|']) (tagP ['|']) rec
    (m ++ '|' :: rest) ('|' :: rest) rest s m ['|'] b h1 h2 hright
  simp [rhsAlternationP, hsep, hleft]

/-- Helper: the concatenation branch splits a printed concatenation at its
operator. -/
theorem rhsConcatenationP_print (rec : Parser Rhs) (m rest s rem' : List Char) (a b : Rhs)
    (hm : ',' ∉ m) (hleft : rec m = some (rem', a)) (hright : rec rest = some (s, b)) :
    rhsConcatenationP rec (m ++ ',' :: rest) = some (s, .Concatenation a b) := by
  have h1 : takeUntil [','] (m ++ ',' :: rest) = some (',' :: rest, m) :=
    takeUntil_split _ _ _ hm
  have h2 : tagP [','] (',' :: rest) = some (rest, [',']) := tagP_single_cons_eq _ _
  have hsep := separatedPair_eq (takeUntil [',']) (tagP [',']) rec
    (m ++ ',' :: rest) (',' :: rest) rest s m [','] b h1 h2 hright
  simp [rhsConcatenationP, hsep, hleft]

/-- Helper: the exception branch splits a printed exception at its operator. -/
theorem rhsExceptionP_print (rec : Parser Rhs) (m rest s rem' : List Char) (a b : Rhs)
    (hm : '-' ∉ m) (hleft : rec m = some (rem', a)) (hright : rec rest = some (s, b)) :
    rhsExceptionP rec (m ++ '-' :: rest) = some (s, .Exception a b) := by
  have h1 : takeUntil ['-'] (m ++ '-' :: rest) = some ('-' :: rest, m) :=
    takeUntil_split _ _ _ hm
  have h2 : tagP ['-'] ('-' :: rest) = some (rest, ['-']) := tagP_single_cons_eq _ _
  have hsep := separatedPair_eq (takeUntil ['-']) (tagP ['-']) rec
    (m ++ '-' :: rest) ('-' :: rest) rest s m ['-'] b h1 h2 hright
  simp [rhsExceptionP, hsep, hleft]

/-- Helper: identifier heads are not quote characters. -/
theorem identHeadChar_ne_quotes (c : Char) (h : identHeadChar c = true) :
    c ≠ '"' ∧ c ≠ squote := by
  constructor
  · rintro rfl; revert h; decide
  · rintro rfl; revert h; decide

/-- Round-trip core: on a parser-shaped rhs, the dispatcher consumes exactly
the printed form (for the tails that occur inside printed contexts) and
rebuilds the value, at any sufficient budget. -/
theorem rhsF_print (r : Rhs) : ∀ (fuel : Nat) (s : List Char), validRhs r = true →
    goodTail s → (printRhs r ++ s).length < fuel →
    rhsF fuel (printRhs r ++ s) = some (s, r) := by
  induction r with
  | Identifier x =>
    intro fuel s hv hs hlen
    simp only [validRhs] at hv
    cases fuel with
    | zero => exact absurd hlen (Nat.not_lt_zero _)
    | succ f =>
      cases x with
      | nil => simp [wfIdent] at hv
      | cons c x' =>
        have hd : identHeadChar c = true := by
          simp only [wfIdent, Bool.and_eq_true] at hv
          exact hv.1
        have hne := atomHead_ne c (Or.inl hd)
        have hq := identHeadChar_ne_quotes c hd
        have hmem : ∀ d : Char, identChar d = false → d ≠ ' ' → d ∉ c :: (x' ++ s) := by
          intro d hdf hdsp hm
          rcases List.mem_cons.mp hm with rfl | hm
          · simp [identHeadChar_identChar d hd] at hdf
          · rcases List.mem_append.mp hm with hm | hm
            · have := wf_all_identChar (c :: x') hv d (List.mem_cons_of_mem c hm)
              simp [this] at hdf
            · exact goodTail_not_mem s hs d hdsp hm
        have hh : ∀ d, (c :: (x' ++ s)).head? = some d → (d == ' ' || d == '\t') = false := by
          intro d hdd
          simp only [List.head?_cons, Option.some.injEq] at hdd
          subst hdd
          exact hne.2.2.2
        have hgr := rhsGroupP_none (rhsF f) (c :: (x' ++ s))
          (tagP_cons_ne '(' c [] _ (Ne.symm hne.1))
        have hre := rhsRepetitionP_none (rhsF f) (c :: (x' ++ s))
          (tagP_cons_ne lbrace c [] _ (Ne.symm hne.2.2.1))
        have hop := rhsOptionalP_none (rhsF f) (c :: (x' ++ s))
          (tagP_cons_ne '[' c [] _ (Ne.symm hne.2.1))
        have hal := rhsAlternationP_none (rhsF f) (c :: (x' ++ s))
          (hmem '|' (by decide) (by decide))
        have hco := rhsConcatenationP_none (rhsF f) (c :: (x' ++ s))
          (hmem ',' (by decide) (by decide))
        have hex := rhsExceptionP_none (rhsF f) (c :: (x' ++ s))
          (hmem '-' (by decide) (by decide))
        have hte := rhsTerminalP_none (c :: (x' ++ s))
          (tagP_cons_ne '"' c [] _ (Ne.symm hq.1))
          (tagP_cons_ne squote c [] _ (Ne.symm hq.2))
        have hid : rhsIdentifierP (c :: (x' ++ s)) = some (s, .Identifier (c :: x')) := by
          have hi := identifier_print (c :: x') s hv (goodTail_headNotIdent s hs)
          rw [List.cons_append] at hi
          simp [rhsIdentifierP, hi]
        simp only [printRhs, List.cons_append]
        rw [rhsF_no_space f _ hh]
        simp only [rhsAlt]
        rw [orElse_none _ _ _ hgr, orElse_none _ _ _ hre, orElse_none _ _ _ hop,
          orElse_none _ _ _ hal, orElse_none _ _ _ hco, orElse_none _ _ _ hex,
          orElse_none _ _ _ hte, hid]
  | Terminal t =>
    intro fuel s hv hs hlen
    simp only [validRhs] at hv
    cases fuel with
    | zero => exact absurd hlen (Nat.not_lt_zero _)
    | succ f =>
      have hi : printRhs (.Terminal t) ++ s = '"' :: (t ++ '"' :: s) := by
        simp [printRhs, printTerminal]
      have hmem : ∀ d : Char, d ∈ ebnfSpecials → d ≠ '"' → d ≠ ' ' →
          d ∉ '"' :: (t ++ '"' :: s) := by
        intro d hdsp hdq hdsp2 hm
        rcases List.mem_cons.mp hm with rfl | hm
        · exact hdq rfl
        · rcases List.mem_append.mp hm with hm | hm
          · exact safeTerm_not_mem t hv d hdsp hm
          · rcases List.mem_cons.mp hm with rfl | hm
            · exact hdq rfl
            · exact goodTail_not_mem s hs d hdsp2 hm
      have hh : ∀ d, ('"' :: (t ++ '"' :: s)).head? = some d →
          (d == ' ' || d == '\t') = false := by
        intro d hdd
        simp only [List.head?_cons, Option.some.injEq] at hdd
        subst hdd
        decide
      have hgr := rhsGroupP_none (rhsF f) ('"' :: (t ++ '"' :: s))
        (tagP_cons_ne '(' '"' [] _ (by decide))
      have hre := rhsRepetitionP_none (rhsF f) ('"' :: (t ++ '"' :: s))
        (tagP_cons_ne lbrace '"' [] _ (by decide))
      have hop := rhsOptionalP_none (rhsF f) ('"' :: (t ++ '"' :: s))
        (tagP_cons_ne '[' '"' [] _ (by decide))
      have hal := rhsAlternationP_none (rhsF f) ('"' :: (t ++ '"' :: s))
        (hmem '|' (by decide) (by decide) (by decide))
      have hco := rhsConcatenationP_none (rhsF f) ('"' :: (t ++ '"' :: s))
        (hmem ',' (by decide) (by decide) (by decide))
      have hex := rhsExceptionP_none (rhsF f) ('"' :: (t ++ '"' :: s))
        (hmem '-' (by decide) (by decide) (by decide))
      have hte := rhsTerminalP_print t s (safeTerm_not_mem t hv '"' (by decide))
      rw [hi, rhsF_no_space f _ hh]
      simp only [rhsAlt]
      rw [orElse_none _ _ _ hgr, orElse_none _ _ _ hre, orElse_none _ _ _ hop,
        orElse_none _ _ _ hal, orElse_none _ _ _ hco, orElse_none _ _ _ hex,
        orElse_some _ _ _ _ hte]
  | Optional r ih =>
    intro fuel s hv hs hlen
    obtain ⟨hvr, hnr⟩ := validRhs_opt r hv
    cases fuel with
    | zero => exact absurd hlen (Nat.not_lt_zero _)
    | succ f =>
      have hi : printRhs (.Optional r) ++ s
          = '[' :: ((' ' :: (printRhs r ++ [' '])) ++ ']' :: s) := by
        simp [printRhs]
      have hlen' : (printRhs r).length + 4 + s.length < f + 1 := by
        simp only [printRhs, List.length_append, List.length_cons] at hlen
        omega
      cases f with
      | zero => omega
      | succ f2 =>
        have hmB : ']' ∉ ' ' :: (printRhs r ++ [' ']) := by
          intro hm
          rcases List.mem_cons.mp hm with h | hm
          · exact absurd h (by decide)
          · rcases List.mem_append.mp hm with hm | hm
            · exact hnr hm
            · exact absurd hm (by decide)
        have hrec : rhsF (f2 + 1) (' ' :: (printRhs r ++ [' '])) = some ([' '], r) := by
          rw [rhsF_cons_space]
          exact ih (f2 + 1) [' '] hvr (Or.inr rfl)
            (by simp; omega)
        have hopt := rhsOptionalP_print (rhsF (f2 + 1)) (' ' :: (printRhs r ++ [' ']))
          s [' '] r hmB hrec
        have hh : ∀ d, ('[' :: ((' ' :: (printRhs r ++ [' '])) ++ ']' :: s)).head? = some d →
            (d == ' ' || d == '\t') = false := by
          intro d hdd
          simp only [List.head?_cons, Option.some.injEq] at hdd
          subst hdd
          decide
        have hgr := rhsGroupP_none (rhsF (f2 + 1))
          ('[' :: ((' ' :: (printRhs r ++ [' '])) ++ ']' :: s))
          (tagP_cons_ne '(' '[' [] _ (by decide))
        have hre := rhsRepetitionP_none (rhsF (f2 + 1))
          ('[' :: ((' ' :: (printRhs r ++ [' '])) ++ ']' :: s))
          (tagP_cons_ne lbrace '[' [] _ (by decide))
        rw [hi, rhsF_no_space (f2 + 1) _ hh]
        simp only [rhsAlt]
        rw [orElse_none _ _ _ hgr, orElse_none _ _ _ hre, orElse_some _ _ _ _ hopt]
  | Repeat r ih =>
    intro fuel s hv hs hlen
    obtain ⟨hvr, hnr⟩ := validRhs_rep r hv
    cases fuel with
    | zero => exact absurd hlen (Nat.not_lt_zero _)
    | succ f =>
      have hi : printRhs (.Repeat r) ++ s
          = lbrace :: ((' ' :: (printRhs r ++ [' '])) ++ rbrace :: s) := by
        simp [printRhs]
      have hlen' : (printRhs r).length + 4 + s.length < f + 1 := by
        simp only [printRhs, List.length_append, List.length_cons] at hlen
        omega
      cases f with
      | zero => omega
      | succ f2 =>
        have hmB : rbrace ∉ ' ' :: (printRhs r ++ [' ']) := by
          intro hm
          rcases List.mem_cons.mp hm with h | hm
          · exact absurd h (by decide)
          · rcases List.mem_append.mp hm with hm | hm
            · exact hnr hm
            · exact absurd hm (by decide)
        have hrec : rhsF (f2 + 1) (' ' :: (printRhs r ++ [' '])) = some ([' '], r) := by
          rw [rhsF_cons_space]
          exact ih (f2 + 1) [' '] hvr (Or.inr rfl)
            (by simp; omega)
        have hrep := rhsRepetitionP_print (rhsF (f2 + 1)) (' ' :: (printRhs r ++ [' ']))
          s [' '] r hmB hrec
        have hh : ∀ d, (lbrace :: ((' ' :: (printRhs r ++ [' '])) ++ rbrace :: s)).head?
            = some d → (d == ' ' || d == '\t') = false := by
          intro d hdd
          simp only [List.head?_cons, Option.some.injEq] at hdd
          subst hdd
          decide
        have hgr := rhsGroupP_none (rhsF (f2 + 1))
          (lbrace :: ((' ' :: (printRhs r ++ [' '])) ++ rbrace :: s))
          (tagP_cons_ne '(' lbrace [] _ (by decide))
        rw [hi, rhsF_no_space (f2 + 1) _ hh]
        simp only [rhsAlt]
        rw [orElse_none _ _ _ hgr, orElse_some _ _ _ _ hrep]
  | Group r ih =>
    intro fuel s hv hs hlen
    obtain ⟨hvr, hnr⟩ := validRhs_grp r hv
    cases fuel with
    | zero => exact absurd hlen (Nat.not_lt_zero _)
    | succ f =>
      have hi : printRhs (.Group r) ++ s
          = '(' :: ((' ' :: (printRhs r ++ [' '])) ++ ')' :: s) := by
        simp [printRhs]
      have hlen' : (printRhs r).length + 4 + s.length < f + 1 := by
        simp only [printRhs, List.length_append, List.length_cons] at hlen
        omega
      cases f with
      | zero => omega
      | succ f2 =>
        have hmB : ')' ∉ ' ' :: (printRhs r ++ [' ']) := by
          intro hm
          rcases List.mem_cons.mp hm with h | hm
          · exact absurd h (by decide)
          · rcases List.mem_append.mp hm with hm | hm
            · exact hnr hm
            · exact absurd hm (by decide)
        have hrec : rhsF (f2 + 1) (' ' :: (printRhs r ++ [' '])) = some ([' '], r) := by
          rw [rhsF_cons_space]
          exact ih (f2 + 1) [' '] hvr (Or.inr rfl)
            (by simp; omega)
        have hgrp := rhsGroupP_print (rhsF (f2 + 1)) (' ' :: (printRhs r ++ [' ']))
          s [' '] r hmB hrec
        have hh : ∀ d, ('(' :: ((' ' :: (printRhs r ++ [' '])) ++ ')' :: s)).head?
            = some d → (d == ' ' || d == '\t') = false := by
          intro d hdd
          simp only [List.head?_cons, Option.some.injEq] at hdd
          subst hdd
          decide
        rw [hi, rhsF_no_space (f2 + 1) _ hh]
        simp only [rhsAlt]
        rw [orElse_some _ _ _ _ hgrp]
  | Alternation a b iha ihb =>
    intro fuel s hv hs hlen
    obtain ⟨hva, hvb, hhat, hpa⟩ := validRhs_alt a b hv
    cases fuel with
    | zero => exact absurd hlen (Nat.not_lt_zero _)
    | succ f =>
      have hi : printRhs (.Alternation a b) ++ s
          = (printRhs a ++ [' ']) ++ '|' :: (' ' :: (printRhs b ++ s)) := by
        simp [printRhs]
      have hlen' : (printRhs a).length + 3 + (printRhs b).length + s.length < f + 1 := by
        simp only [printRhs, List.length_append, List.length_cons] at hlen
        omega
      cases f with
      | zero => omega
      | succ f2 =>
        obtain ⟨c, rest0, hpr, hcq⟩ := headAtom_head a hva hhat
        have hne := atomHead_ne c hcq
        have hcons : (printRhs a ++ [' ']) ++ '|' :: (' ' :: (printRhs b ++ s))
            = c :: ((rest0 ++ [' ']) ++ '|' :: (' ' :: (printRhs b ++ s))) := by
          rw [hpr]
          simp
        have hh : ∀ d, ((printRhs a ++ [' ']) ++ '|' :: (' ' :: (printRhs b ++ s))).head?
            = some d → (d == ' ' || d == '\t') = false := by
          rw [hcons]
          intro d hdd
          simp only [List.head?_cons, Option.some.injEq] at hdd
          subst hdd
          exact hne.2.2.2
        have hgr := rhsGroupP_none (rhsF (f2 + 1)) _
          (hcons ▸ tagP_cons_ne '(' c [] _ (Ne.symm hne.1))
        have hre := rhsRepetitionP_none (rhsF (f2 + 1)) _
          (hcons ▸ tagP_cons_ne lbrace c [] _ (Ne.symm hne.2.2.1))
        have hop := rhsOptionalP_none (rhsF (f2 + 1)) _
          (hcons ▸ tagP_cons_ne '[' c [] _ (Ne.symm hne.2.1))
        have hmA : '|' ∉ printRhs a ++ [' '] := by
          intro hm
          rcases List.mem_append.mp hm with hm | hm
          · exact hpa hm
          · exact absurd hm (by decide)
        have hleft : rhsF (f2 + 1) (printRhs a ++ [' ']) = some ([' '], a) :=
          iha (f2 + 1) [' '] hva (Or.inr rfl)
            (by simp; omega)
        have hright : rhsF (f2 + 1) (' ' :: (printRhs b ++ s)) = some (s, b) := by
          rw [rhsF_cons_space]
          exact ihb (f2 + 1) s hvb hs
            (by simp; omega)
        have halt := rhsAlternationP_print (rhsF (f2 + 1)) (printRhs a ++ [' '])
          (' ' :: (printRhs b ++ s)) s [' '] a b hmA hleft hright
        rw [hi, rhsF_no_space (f2 + 1) _ hh]
        simp only [rhsAlt]
        rw [orElse_none _ _ _ hgr, orElse_none _ _ _ hre, orElse_none _ _ _ hop,
          orElse_some _ _ _ _ halt]
  | Concatenation a b iha ihb =>
    intro fuel s hv hs hlen
    obtain ⟨hva, hvb, hhat, hpa, hpb, hca⟩ := validRhs_cat a b hv
    cases fuel with
    | zero => exact absurd hlen (Nat.not_lt_zero _)
    | succ f =>
      have hi : printRhs (.Concatenation a b) ++ s
          = (printRhs a ++ [' ']) ++ ',' :: (' ' :: (printRhs b ++ s)) := by
        simp [printRhs]
      have hlen' : (printRhs a).length + 3 + (printRhs b).length + s.length < f + 1 := by
        simp only [printRhs, List.length_append, List.length_cons] at hlen
        omega
      cases f with
      | zero => omega
      | succ f2 =>
        obtain ⟨c, rest0, hpr, hcq⟩ := headAtom_head a hva hhat
        have hne := atomHead_ne c hcq
        have hcons : (printRhs a ++ [' ']) ++ ',' :: (' ' :: (printRhs b ++ s))
            = c :: ((rest0 ++ [' ']) ++ ',' :: (' ' :: (printRhs b ++ s))) := by
          rw [hpr]
          simp
        have hh : ∀ d, ((printRhs a ++ [' ']) ++ ',' :: (' ' :: (printRhs b ++ s))).head?
            = some d → (d == ' ' || d == '\t') = false := by
          rw [hcons]
          intro d hdd
          simp only [List.head?_cons, Option.some.injEq] at hdd
          subst hdd
          exact hne.2.2.2
        have hgr := rhsGroupP_none (rhsF (f2 + 1)) _
          (hcons ▸ tagP_cons_ne '(' c [] _ (Ne.symm hne.1))
        have hre := rhsRepetitionP_none (rhsF (f2 + 1)) _
          (hcons ▸ tagP_cons_ne lbrace c [] _ (Ne.symm hne.2.2.1))
        have hop := rhsOptionalP_none (rhsF (f2 + 1)) _
          (hcons ▸ tagP_cons_ne '[' c [] _ (Ne.symm hne.2.1))
        have hnoPipe : '|' ∉ (printRhs a ++ [' ']) ++ ',' :: (' ' :: (printRhs b ++ s)) := by
          intro hm
          rcases List.mem_append.mp hm with hm | hm
          · rcases List.mem_append.mp hm with hm | hm
            · exact hpa hm
            · exact absurd hm (by decide)
          · rcases List.mem_cons.mp hm with h | hm
            · exact absurd h (by decide)
            · rcases List.mem_cons.mp hm with h | hm
              · exact absurd h (by decide)
              · rcases List.mem_append.mp hm with hm | hm
                · exact hpb hm
                · exact goodTail_not_mem s hs '|' (by decide) hm
        have hal := rhsAlternationP_none (rhsF (f2 + 1)) _ hnoPipe
        have hmA : ',' ∉ printRhs a ++ [' '] := by
          intro hm
          rcases List.mem_append.mp hm with hm | hm
          · exact hca hm
          · exact absurd hm (by decide)
        have hleft : rhsF (f2 + 1) (printRhs a ++ [' ']) = some ([' '], a) :=
          iha (f2 + 1) [' '] hva (Or.inr rfl)
            (by simp; omega)
        have hright : rhsF (f2 + 1) (' ' :: (printRhs b ++ s)) = some (s, b) := by
          rw [rhsF_cons_space]
          exact ihb (f2 + 1) s hvb hs
            (by simp; omega)
        have hcat := rhsConcatenationP_print (rhsF (f2 + 1)) (printRhs a ++ [' '])
          (' ' :: (printRhs b ++ s)) s [' '] a b hmA hleft hright
        rw [hi, rhsF_no_space (f2 + 1) _ hh]
        simp only [rhsAlt]
        rw [orElse_none _ _ _ hgr, orElse_none _ _ _ hre, orElse_none _ _ _ hop,
          orElse_none _ _ _ hal, orElse_some _ _ _ _ hcat]
  | Exception a b iha ihb =>
    intro fuel s hv hs hlen
    obtain ⟨hva, hvb, hhat, hpa, hpb, hca, hcb, hda⟩ := validRhs_exc a b hv
    cases fuel with
    | zero => exact absurd hlen (Nat.not_lt_zero _)
    | succ f =>
      have hi : printRhs (.Exception a b) ++ s
          = (printRhs a ++ [' ']) ++ '-' :: (' ' :: (printRhs b ++ s)) := by
        simp [printRhs]
      have hlen' : (printRhs a).length + 3 + (printRhs b).length + s.length < f + 1 := by
        simp only [printRhs, List.length_append, List.length_cons] at hlen
        omega
      cases f with
      | zero => omega
      | succ f2 =>
        obtain ⟨c, rest0, hpr, hcq⟩ := headAtom_head a hva hhat
        have hne := atomHead_ne c hcq
        have hcons : (printRhs a ++ [' ']) ++ '-' :: (' ' :: (printRhs b ++ s))
            = c :: ((rest0 ++ [' ']) ++ '-' :: (' ' :: (printRhs b ++ s))) := by
          rw [hpr]
          simp
        have hh : ∀ d, ((printRhs a ++ [' ']) ++ '-' :: (' ' :: (printRhs b ++ s))).head?
            = some d → (d == ' ' || d == '\t') = false := by
          rw [hcons]
          intro d hdd
          simp only [List.head?_cons, Option.some.injEq] at hdd
          subst hdd
          exact hne.2.2.2
        have hgr := rhsGroupP_none (rhsF (f2 + 1)) _
          (hcons ▸ tagP_cons_ne '(' c [] _ (Ne.symm hne.1))
        have hre := rhsRepetitionP_none (rhsF (f2 + 1)) _
          (hcons ▸ tagP_cons_ne lbrace c [] _ (Ne.symm hne.2.2.1))
        have hop := rhsOptionalP_none (rhsF (f2 + 1)) _
          (hcons ▸ tagP_cons_ne '[' c [] _ (Ne.symm hne.2.1))
        have hnoPipe : '|' ∉ (printRhs a ++ [' ']) ++ '-' :: (' ' :: (printRhs b ++ s)) := by
          intro hm
          rcases List.mem_append.mp hm with hm | hm
          · rcases List.mem_append.mp hm with hm | hm
            · exact hpa hm
            · exact absurd hm (by decide)
          · rcases List.mem_cons.mp hm with h | hm
            · exact absurd h (by decide)
            · rcases List.mem_cons.mp hm with h | hm
              · exact absurd h (by decide)
              · rcases List.mem_append.mp hm with hm | hm
                · exact hpb hm
                · exact goodTail_not_mem s hs '|' (by decide) hm
        have hnoComma : ',' ∉ (printRhs a ++ [' ']) ++ '-' :: (' ' :: (printRhs b ++ s)) := by
          intro hm
          rcases List.mem_append.mp hm with hm | hm
          · rcases List.mem_append.mp hm with hm | hm
            · exact hca hm
            · exact absurd hm (by decide)
          · rcases List.mem_cons.mp hm with h | hm
            · exact absurd h (by decide)
            · rcases List.mem_cons.mp hm with h | hm
              · exact absurd h (by decide)
              · rcases List.mem_append.mp hm with hm | hm
                · exact hcb hm
                · exact goodTail_not_mem s hs ',' (by decide) hm
        have hal := rhsAlternationP_none (rhsF (f2 + 1)) _ hnoPipe
        have hco := rhsConcatenationP_none (rhsF (f2 + 1)) _ hnoComma
        have hmA : '-' ∉ printRhs a ++ [' '] := by
          intro hm
          rcases List.mem_append.mp hm with hm | hm
          · exact hda hm
          · exact absurd hm (by decide)
        have hleft : rhsF (f2 + 1) (printRhs a ++ [' ']) = some ([' '], a) :=
          iha (f2 + 1) [' '] hva (Or.inr rfl)
            (by simp; omega)
        have hright : rhsF (f2 + 1) (' ' :: (printRhs b ++ s)) = some (s, b) := by
          rw [rhsF_cons_space]
          exact ihb (f2 + 1) s hvb hs
            (by simp; omega)
        have hexc := rhsExceptionP_print (rhsF (f2 + 1)) (printRhs a ++ [' '])
          (' ' :: (printRhs b ++ s)) s [' '] a b hmA hleft hright
        rw [hi, rhsF_no_space (f2 + 1) _ hh]
        simp only [rhsAlt]
        rw [orElse_none _ _ _ hgr, orElse_none _ _ _ hre, orElse_none _ _ _ hop,
          orElse_none _ _ _ hal, orElse_none _ _ _ hco, orElse_some _ _ _ _ hexc]

/-- Failure of `terminated` at its first parser. -/
theorem terminated_none_fst {α β : Type} (p : Parser α) (q : Parser β) (i : List Char)
    (hp : p i = none) : terminated p q i = none := by
  simp [terminated, hp]

/-- Helper: a printed parser-shaped rhs never contains `;`. -/
theorem print_no_semi (r : Rhs) (hv : validRhs r = true) : ';' ∉ printRhs r := by
  induction r with
  | Identifier x =>
    simp only [validRhs] at hv
    simpa [printRhs] using wf_not_mem x hv ';' (by decide)
  | Terminal t =>
    simp only [validRhs] at hv
    intro hm
    simp only [printRhs, printTerminal] at hm
    rcases List.mem_cons.mp hm with h | hm
    · exact absurd h (by decide)
    · rcases List.mem_append.mp hm with hm | hm
      · exact safeTerm_not_mem t hv ';' (by decide) hm
      · exact absurd hm (by decide)
  | Optional r ih =>
    obtain ⟨hvr, -⟩ := validRhs_opt r hv
    intro hm
    simp only [printRhs] at hm
    rcases List.mem_cons.mp hm with h | hm
    · exact absurd h (by decide)
    rcases List.mem_cons.mp hm with h | hm
    · exact absurd h (by decide)
    rcases List.mem_append.mp hm with hm | hm
    · exact ih hvr hm
    · exact absurd hm (by decide)
  | Repeat r ih =>
    obtain ⟨hvr, -⟩ := validRhs_rep r hv
    intro hm
    simp only [printRhs] at hm
    rcases List.mem_cons.mp hm with h | hm
    · exact absurd h (by decide)
    rcases List.mem_cons.mp hm with h | hm
    · exact absurd h (by decide)
    rcases List.mem_append.mp hm with hm | hm
    · exact ih hvr hm
    · exact absurd hm (by decide)
  | Group r ih =>
    obtain ⟨hvr, -⟩ := validRhs_grp r hv
    intro hm
    simp only [printRhs] at hm
    rcases List.mem_cons.mp hm with h | hm
    · exact absurd h (by decide)
    rcases List.mem_cons.mp hm with h | hm
    · exact absurd h (by decide)
    rcases List.mem_append.mp hm with hm | hm
    · exact ih hvr hm
    · exact absurd hm (by decide)
  | Exception a b iha ihb =>
    obtain ⟨hva, hvb, -, -, -, -, -, -⟩ := validRhs_exc a b hv
    intro hm
    simp only [printRhs] at hm
    rcases List.mem_append.mp hm with hm | hm
    · exact iha hva hm
    rcases List.mem_cons.mp hm with h | hm
    · exact absurd h (by decide)
    rcases List.mem_cons.mp hm with h | hm
    · exact absurd h (by decide)
    rcases List.mem_cons.mp hm with h | hm
    · exact absurd h (by decide)
    exact ihb hvb hm
  | Alternation a b iha ihb =>
    obtain ⟨hva, hvb, -, -⟩ := validRhs_alt a b hv
    intro hm
    simp only [printRhs] at hm
    rcases List.mem_append.mp hm with hm | hm
    · exact iha hva hm
    rcases List.mem_cons.mp hm with h | hm
    · exact absurd h (by decide)
    rcases List.mem_cons.mp hm with h | hm
    · exact absurd h (by decide)
    rcases List.mem_cons.mp hm with h | hm
    · exact absurd h (by decide)
    exact ihb hvb hm
  | Concatenation a b iha ihb =>
    obtain ⟨hva, hvb, -, -, -, -⟩ := validRhs_cat a b hv
    intro hm
    simp only [printRhs] at hm
    rcases List.mem_append.mp hm with hm | hm
    · exact iha hva hm
    rcases List.mem_cons.mp hm with h | hm
    · exact absurd h (by decide)
    rcases List.mem_cons.mp hm with h | hm
    · exact absurd h (by decide)
    rcases List.mem_cons.mp hm with h | hm
    · exact absurd h (by decide)
    exact ihb hvb hm

/-- Round trip for a parser-shaped rhs: `from_str` of the printed form
rebuilds the value. -/
theorem rhs_print_roundtrip (r : Rhs) (hv : validRhs r = true) :
    Rhs.fromStr (printRhs r) = some r := by
  have h := rhsF_print r ((printRhs r ++ []).length + 1) [] hv (Or.inl rfl) (by simp)
  rw [List.append_nil] at h
  simp [Rhs.fromStr, rhs, h]

/-- Helper: `production` consumes exactly a printed parser-shaped production
and leaves any rest untouched. -/
theorem production_print (p : Production) (hp : validProduction p = true)
    (rest : List Char) : production (printProduction p ++ rest) = some (rest, p) := by
  obtain ⟨x, r⟩ := p
  simp only [validProduction, Bool.and_eq_true] at hp
  obtain ⟨hx, hr⟩ := hp
  have hsemi := print_no_semi r hr
  have hi : printProduction ⟨x, r⟩ ++ rest
      = (x ++ [' ']) ++ '=' :: ((' ' :: (printRhs r ++ [' '])) ++ ';' :: rest) := by
    simp [printProduction]
  have hmEq : '=' ∉ x ++ [' '] := by
    intro hm
    rcases List.mem_append.mp hm with hm | hm
    · exact wf_not_mem x hx '=' (by decide) hm
    · exact absurd hm (by decide)
  have hmS : ';' ∉ ' ' :: (printRhs r ++ [' ']) := by
    intro hm
    rcases List.mem_cons.mp hm with h | hm
    · exact absurd h (by decide)
    rcases List.mem_append.mp hm with hm | hm
    · exact hsemi hm
    · exact absurd hm (by decide)
  have h1 := takeUntil_split '=' (x ++ [' '])
    ((' ' :: (printRhs r ++ [' '])) ++ ';' :: rest) hmEq
  have h2 := tagP_single_cons_eq '=' ((' ' :: (printRhs r ++ [' '])) ++ ';' :: rest)
  have h3 := takeUntil_split ';' (' ' :: (printRhs r ++ [' '])) rest hmS
  have h4 := tagP_single_cons_eq ';' rest
  have hsep := separatedPair_eq (takeUntil ['=']) (tagP ['=']) (takeUntil [';'])
    _ _ _ _ _ _ _ h1 h2 h3
  have hterm := terminated_eq _ (tagP [';']) _ _ _ _ _ hsep h4
  have hlhs : lhsP (x ++ [' ']) = some ([' '], x) :=
    identifier_print x [' '] hx (goodTail_headNotIdent [' '] (Or.inr rfl))
  have hrhs : rhs (' ' :: (printRhs r ++ [' '])) = some ([' '], r) := by
    show rhsF ((' ' :: (printRhs r ++ [' '])).length + 1) (' ' :: (printRhs r ++ [' '])) = _
    rw [rhsF_cons_space]
    exact rhsF_print r _ [' '] hr (Or.inr rfl) (by simp)
  rw [hi]
  simp only [production]
  rw [hterm]
  simp [hlhs, hrhs]

/-- Round trip for a parser-shaped production. -/
theorem production_print_roundtrip (p : Production) (hp : validProduction p = true) :
    Production.fromStr (printProduction p) = some p := by
  have h := production_print p hp []
  rw [List.append_nil] at h
  simp [Production.fromStr, h]

/-- Helper: the printed grammar of a cons. -/
theorem printGrammar_cons (p : Production) (rules : List Production) :
    printGrammar ⟨p :: rules⟩ = printProduction p ++ '\n' :: printGrammar ⟨rules⟩ := by
  simp [printGrammar]

/-- Helper: a printed production starts with its lhs head character. -/
theorem production_head (p : Production) (hp : validProduction p = true) :
    ∃ c rest, printProduction p = c :: rest ∧ identHeadChar c = true := by
  obtain ⟨x, r⟩ := p
  simp only [validProduction, Bool.and_eq_true] at hp
  cases x with
  | nil => simp [wfIdent] at hp
  | cons c x' =>
    refine ⟨c, x' ++ (' ' :: '=' :: ' ' :: printRhs r) ++ [' ', ';'], by simp [printProduction], ?_⟩
    simp only [wfIdent, Bool.and_eq_true] at hp
    exact hp.1.1

/-- Helper: identifier head characters are not whitespace. -/
theorem identHeadChar_not_ws (c : Char) (h : identHeadChar c = true) :
    isWhitespaceChar c = false := by
  have h1 : c ≠ ' ' := by rintro rfl; revert h; decide
  have h2 : c ≠ '\t' := by rintro rfl; revert h; decide
  have h3 : c ≠ '\r' := by rintro rfl; revert h; decide
  have h4 : c ≠ '\n' := by rintro rfl; revert h; decide
  simp [isWhitespaceChar, h1, h2, h3, h4]

/-- Helper: `whitespace` consumes nothing on a non-whitespace head. -/
theorem whitespaceP_stop (i : List Char)
    (hh : ∀ c, i.head? = some c → isWhitespaceChar c = false) :
    whitespaceP i = some (i, []) := by
  cases i with
  | nil => rfl
  | cons c l =>
    simp [whitespaceP, takeWhileP, List.dropWhile_cons, List.takeWhile_cons, hh c rfl]

/-- Helper: `comment` fails unless the input starts with `(`. -/
theorem comment_none (i : List Char) (hh : ∀ c, i.head? = some c → c ≠ '(') :
    comment i = none := by
  cases i with
  | nil => rfl
  | cons c l =>
    exact delimited_none_fst _ _ _ _ (tagP_cons_ne '(' c ['*'] l (Ne.symm (hh c rfl)))

/-- Helper: `comment_and_whitespace` consumes nothing on a production head. -/
theorem caw_stop (i : List Char)
    (hws : ∀ c, i.head? = some c → isWhitespaceChar c = false)
    (hpc : ∀ c, i.head? = some c → c ≠ '(') :
    commentAndWhitespace i = some (i, []) := by
  have hw := whitespaceP_stop i hws
  have hcn := comment_none i hpc
  have h1 : preceded whitespaceP comment i = none := by
    rw [preceded_eq _ _ _ _ _ hw]
    exact hcn
  have h2 : terminated (preceded whitespaceP comment) whitespaceP i = none :=
    terminated_none_fst _ _ _ h1
  show orElse _ _ i = _
  rw [orElse_none _ _ _ h2]
  exact hw

/-- Helper: `comment_and_whitespace` consumes exactly the separating newline
between printed productions. -/
theorem caw_newline (restG : List Char)
    (hws : ∀ c, restG.head? = some c → isWhitespaceChar c = false)
    (hpc : ∀ c, restG.head? = some c → c ≠ '(') :
    commentAndWhitespace ('\n' :: restG) = some (restG, ['\n']) := by
  have hw : whitespaceP ('\n' :: restG) = some (restG, ['\n']) := by
    cases restG with
    | nil => rfl
    | cons c l =>
      have hnl : isWhitespaceChar '\n' = true := by decide
      simp [whitespaceP, takeWhileP, List.dropWhile_cons, List.takeWhile_cons, hnl, hws c rfl]
  have hcn := comment_none restG hpc
  have h1 : preceded whitespaceP comment ('\n' :: restG) = none := by
    rw [preceded_eq _ _ _ _ _ hw]
    exact hcn
  have h2 : terminated (preceded whitespaceP comment) whitespaceP ('\n' :: restG) = none :=
    terminated_none_fst _ _ _ h1
  show orElse _ _ ('\n' :: restG) = _
  rw [orElse_none _ _ _ h2]
  exact hw

/-- Helper: head facts for a printed grammar. -/
theorem printGrammar_headOk (rules : List Production)
    (hv : ∀ p ∈ rules, validProduction p = true) :
    (∀ c, (printGrammar ⟨rules⟩).head? = some c → isWhitespaceChar c = false)
    ∧ (∀ c, (printGrammar ⟨rules⟩).head? = some c → c ≠ '(') := by
  cases rules with
  | nil =>
    constructor
    · intro c h; simp [printGrammar] at h
    · intro c h; simp [printGrammar] at h
  | cons p rest =>
    obtain ⟨c0, r0, hpp, hch⟩ := production_head p (hv p (List.mem_cons_self p rest))
    have hh : (printGrammar ⟨p :: rest⟩).head? = some c0 := by
      rw [printGrammar_cons, hpp]
      simp
    constructor
    · intro c h
      rw [hh] at h
      cases h
      exact identHeadChar_not_ws c0 hch
    · intro c h
      rw [hh] at h
      cases h
      exact (atomHead_ne c0 (Or.inl hch)).1

/-- Round-trip core for grammars: the `many0` loop of the grammar parser
consumes the printed productions one by one. -/
theorem grammar_go (rules : List Production)
    (hv : ∀ p ∈ rules, validProduction p = true) :
    ∀ fuel, rules.length < fuel →
      many0Go (terminated (preceded commentAndWhitespace production) commentAndWhitespace)
        fuel (printGrammar ⟨rules⟩) = some ([], rules) := by
  induction rules with
  | nil =>
    intro fuel hlen
    cases fuel with
    | zero => omega
    | succ f =>
      have hcaw : commentAndWhitespace ([] : List Char) = some ([], []) :=
        caw_stop [] (by intro c h; simp at h) (by intro c h; simp at h)
      have hpre : preceded commentAndWhitespace production [] = none := by
        rw [preceded_eq _ _ _ _ _ hcaw]
        rfl
      have hinner : terminated (preceded commentAndWhitespace production)
          commentAndWhitespace [] = none := terminated_none_fst _ _ _ hpre
      show many0Go _ (f + 1) (printGrammar ⟨[]⟩) = _
      exact many0Go_stop _ _ _ hinner
  | cons p rest ih =>
    intro fuel hlen
    cases fuel with
    | zero => omega
    | succ f =>
      have hvp := hv p (List.mem_cons_self p rest)
      have hvr : ∀ q ∈ rest, validProduction q = true :=
        fun q hq => hv q (List.mem_cons_of_mem p hq)
      obtain ⟨c0, r0, hpp, hch⟩ := production_head p hvp
      obtain ⟨hXws, hXpc⟩ := printGrammar_headOk rest hvr
      have hIhead : (printProduction p ++ '\n' :: printGrammar ⟨rest⟩).head? = some c0 := by
        rw [hpp]
        simp
      have hcaw1 : commentAndWhitespace (printProduction p ++ '\n' :: printGrammar ⟨rest⟩)
          = some (printProduction p ++ '\n' :: printGrammar ⟨rest⟩, []) := by
        refine caw_stop _ ?_ ?_
        · intro c h
          rw [hIhead] at h
          cases h
          exact identHeadChar_not_ws c0 hch
        · intro c h
          rw [hIhead] at h
          cases h
          exact (atomHead_ne c0 (Or.inl hch)).1
      have hprod := production_print p hvp ('\n' :: printGrammar ⟨rest⟩)
      have hcaw2 := caw_newline (printGrammar ⟨rest⟩) hXws hXpc
      have hpre : preceded commentAndWhitespace production
          (printProduction p ++ '\n' :: printGrammar ⟨rest⟩)
          = some ('\n' :: printGrammar ⟨rest⟩, p) := by
        rw [preceded_eq _ _ _ _ _ hcaw1]
        exact hprod
      have hinner := terminated_eq (preceded commentAndWhitespace production)
        commentAndWhitespace _ _ _ _ _ hpre hcaw2
      have hstep := many0Go_step
        (terminated (preceded commentAndWhitespace production) commentAndWhitespace) f
        (printProduction p ++ '\n' :: printGrammar ⟨rest⟩) (printGrammar ⟨rest⟩) p hinner
        (by simp; omega)
      have hrec := ih hvr f (by simp only [List.length_cons] at hlen; omega)
      rw [printGrammar_cons, hstep, hrec]

/-- Helper: a grammar has no more rules than printed characters. -/
theorem printGrammar_length (rules : List Production) :
    rules.length ≤ (printGrammar ⟨rules⟩).length := by
  induction rules with
  | nil => simp [printGrammar]
  | cons p rest ih =>
    rw [printGrammar_cons]
    simp only [List.length_append, List.length_cons]
    omega

/-- Round trip for a parser-shaped grammar. -/
theorem grammar_print_roundtrip (g : Grammar) (hv : validGrammar g = true) :
    Grammar.fromStr (printGrammar g) = some g := by
  obtain ⟨rules⟩ := g
  have hv' : ∀ p ∈ rules, validProduction p = true := by
    simpa [validGrammar, List.all_eq_true] using hv
  have hlen := printGrammar_length rules
  have h := grammar_go rules hv' ((printGrammar ⟨rules⟩).length + 1) (by omega)
  simp [Grammar.fromStr, grammar, many0, h]

/-- C2 amended: `parse(print(x)) = x` for every parser-shaped `x` — a
well-formed-identifier, metacharacter-free, bracket-closer-free,
left-operand-clean rhs (`validRhs`), a production over such an rhs with a
well-formed lhs, and a grammar of such productions.  (The unrestricted claim
is refuted by `c2_nested_optional_no_roundtrip`.) -/
theorem c2_roundtrip_amended :
    (∀ r : Rhs, validRhs r = true → Rhs.fromStr (printRhs r) = some r)
    ∧ (∀ p : Production, validProduction p = true →
        Production.fromStr (printProduction p) = some p)
    ∧ (∀ g : Grammar, validGrammar g = true →
        Grammar.fromStr (printGrammar g) = some g) :=
  ⟨rhs_print_roundtrip, production_print_roundtrip, grammar_print_roundtrip⟩

/-- C2 witness: the amended round trip on the grammar `a = "b" ;  c = "d" ;`
(the specification's scenario E5), a production and an rhs. -/
theorem c2_roundtrip_amended_witness :
    Rhs.fromStr (printRhs (.Alternation (.Identifier ['a'])
        (.Concatenation (.Terminal ['b']) (.Identifier ['c']))))
      = some (.Alternation (.Identifier ['a'])
        (.Concatenation (.Terminal ['b']) (.Identifier ['c'])))
    ∧ Production.fromStr (printProduction ⟨['a'], .Terminal ['b']⟩)
      = some ⟨['a'], .Terminal ['b']⟩
    ∧ Grammar.fromStr (printGrammar ⟨[⟨['a'], .Terminal ['b']⟩, ⟨['c'], .Terminal ['d']⟩]⟩)
      = some ⟨[⟨['a'], .Terminal ['b']⟩, ⟨['c'], .Terminal ['d']⟩]⟩ :=
  ⟨c2_roundtrip_amended.1 _ (by decide),
   c2_roundtrip_amended.2.1 _ (by decide),
   c2_roundtrip_amended.2.2 _ (by decide)⟩

end Smol
